import Mathlib

/-!
Verification of the RediSearch core against its specification.

Python dictionaries are modelled as insertion-ordered association lists
(`List (α × β)`); assignment `d[k] = v` is `setKey`, `d.get(k)` is `alookup`,
`d.get(k, 0)` is `lookupD`, and a dict comprehension over pairs is `pyDict`.
Python floats are modelled as exact rationals where only ordered-field
arithmetic occurs, and as real numbers where `math.log` or square roots
enter the computation.
-/

namespace RediSearch

/-- Lookup in an association list: first entry whose key matches. -/
def alookup {α β : Type} [DecidableEq α] (l : List (α × β)) (k : α) : Option β :=
  (l.find? (fun p => p.1 == k)).map (·.2)

/-- Lookup with default, Python `d.get(k, dflt)`. -/
def lookupD {α β : Type} [DecidableEq α] (l : List (α × β)) (k : α) (dflt : β) : β :=
  (alookup l k).getD dflt

/-- Python dict assignment `d[k] = v`: replace in place, else append. -/
def setKey {α β : Type} [DecidableEq α] : List (α × β) → α → β → List (α × β)
  | [], k, v => [(k, v)]
  | p :: rest, k, v => if p.1 = k then (k, v) :: rest else p :: setKey rest k v

/-- Python `d.setdefault(k, v)`. -/
def setDefaultKey {α β : Type} [DecidableEq α] (l : List (α × β)) (k : α) (v : β) :
    List (α × β) :=
  if (alookup l k).isSome then l else l ++ [(k, v)]

/-- Build a dict from a list of pairs, later values overwriting earlier ones. -/
def pyDict {α β : Type} [DecidableEq α] (l : List (α × β)) : List (α × β) :=
  l.foldl (fun acc p => setKey acc p.1 p.2) []

/-- The keys of an association list. -/
def keysOf {α β : Type} (l : List (α × β)) : List α :=
  l.map (·.1)

/-!
Component: Autocomplete trie — `redisearch/autocomplete/trie.py`

`TrieNode` has `children : dict[str, TrieNode]` (insertion-ordered, modelled as
an association list over `Char`), `is_terminal`, `term`, `score` (default 0.0).
Scores only ever flow through `max` and comparisons, so `ℚ` models the float
exactly.
-/

/-- Python `str.lower()` as a character list (`String.toLower` is opaque to
the kernel, so the per-character definition is used throughout). -/
def pyLowerChars (s : String) : List Char := s.data.map Char.toLower

/-- Python `str.lower()`. -/
def pyLower (s : String) : String := String.mk (pyLowerChars s)

/-- A trie node: children dict, terminal flag, stored term, stored score. -/
inductive TrieNode : Type where
  | mk (children : List (Char × TrieNode)) (isTerminal : Bool) (term : String) (score : ℚ)

/-- Fresh node, `TrieNode()` with all defaults. -/
def TrieNode.empty : TrieNode := .mk [] false "" 0

def TrieNode.children : TrieNode → List (Char × TrieNode)
  | .mk c _ _ _ => c

def TrieNode.isTerminal : TrieNode → Bool
  | .mk _ t _ _ => t

def TrieNode.term : TrieNode → String
  | .mk _ _ w _ => w

def TrieNode.score : TrieNode → ℚ
  | .mk _ _ _ s => s

/-- Source `Trie.insert` walking the characters of the already-lowered term. -/
def trieInsertPath (n : TrieNode) : List Char → String → ℚ → TrieNode
  | [], termL, s => .mk n.children true termL (max n.score s)
  | c :: cs, termL, s =>
      match alookup n.children c with
      | some child =>
          .mk (setKey n.children c (trieInsertPath child cs termL s)) n.isTerminal n.term n.score
      | none =>
          .mk (n.children ++ [(c, trieInsertPath TrieNode.empty cs termL s)])
            n.isTerminal n.term n.score

/-- Walk a path of characters from a node, `None` when a child is missing. -/
def nodeAt : TrieNode → List Char → Option TrieNode
  | n, [] => some n
  | n, c :: cs =>
      match alookup n.children c with
      | some child => nodeAt child cs
      | none => none

/-- Score field of the node at a path, 0 when the path is absent
(a freshly created node also carries score 0). -/
def scoreAt (n : TrieNode) (path : List Char) : ℚ :=
  match nodeAt n path with
  | some m => m.score
  | none => 0

/-- Terminal flag of the node at a path, false when absent. -/
def terminalAt (n : TrieNode) (path : List Char) : Bool :=
  match nodeAt n path with
  | some m => m.isTerminal
  | none => false

/-- The `Trie` object: root plus the maintained `_size` counter. -/
structure Trie where
  root : TrieNode
  size : ℕ

def Trie.empty : Trie := ⟨TrieNode.empty, 0⟩

/-- Source `Trie.insert(term, score)`: walk/create nodes for `term.lower()`, set the
terminal data, bump `_size` when the terminal is new. -/
def Trie.insert (t : Trie) (term : String) (score : ℚ) : Trie :=
  let path := pyLowerChars term
  { root := trieInsertPath t.root path (pyLower term) score
    size := t.size + (if terminalAt t.root path then 0 else 1) }

/-- An autocomplete suggestion. -/
structure Suggestion where
  term : String
  score : ℚ
deriving DecidableEq

/-- Source `heapq.heappush` on a min-heap of `(score, term)` tuples, modelled as a
list kept sorted ascending by Python tuple order; `heap[0]` is the minimum. -/
def heapPush (heap : List (ℚ × String)) (x : ℚ × String) : List (ℚ × String) :=
  match heap with
  | [] => [x]
  | y :: t =>
      if x.1 < y.1 ∨ (x.1 = y.1 ∧ x.2 < y.2) then x :: y :: t else y :: heapPush t x

/-- Source `heapq.heapreplace`: pop the minimum, push the new element. -/
def heapReplace (heap : List (ℚ × String)) (x : ℚ × String) : List (ℚ × String) :=
  match heap with
  | [] => [x]
  | _ :: t => heapPush t x

/-- One terminal-node step of `Trie._collect`: push when the heap is short,
otherwise compare against `heap[0][0]` — which raises IndexError (modelled as
`Except.error`) when the heap is empty, i.e. when `k = 0`. -/
def collectStep (heap : List (ℚ × String)) (k : ℕ) (score : ℚ) (term : String) :
    Except Unit (List (ℚ × String)) :=
  if heap.length < k then .ok (heapPush heap (score, term))
  else
    match heap with
    | [] => .error ()
    | (s0, _) :: _ => if s0 < score then .ok (heapReplace heap (score, term)) else .ok heap

mutual

/-- Source `Trie._collect`: DFS over terminal descendants, maintaining the heap. -/
def collectNode : TrieNode → List (ℚ × String) → ℕ → Except Unit (List (ℚ × String))
  | .mk children isTerm term score, heap, k =>
      match (if isTerm then collectStep heap k score term else .ok heap) with
      | .error e => .error e
      | .ok h0 => collectChildren children h0 k

/-- DFS over `node.children.values()` in insertion order. -/
def collectChildren : List (Char × TrieNode) → List (ℚ × String) → ℕ →
    Except Unit (List (ℚ × String))
  | [], heap, _ => .ok heap
  | (_, c) :: rest, heap, k =>
      match collectNode c heap k with
      | .error e => .error e
      | .ok h => collectChildren rest h k

end

/-- Source `Trie.search(prefix, top_k)`: walk to the prefix node, DFS-collect into the
heap, sort descending by score, convert to suggestions. -/
def Trie.search (t : Trie) (pre : String) (topK : ℕ) : Except Unit (List Suggestion) :=
  match nodeAt t.root (pyLowerChars pre) with
  | none => .ok []
  | some n =>
      match collectNode n [] topK with
      | .error e => .error e
      | .ok heap =>
          .ok (((heap.insertionSort (fun a b => b.1 < a.1)).map
            (fun p => Suggestion.mk p.2 p.1)))

/-!
Component: Hybrid fusion — `redisearch/search/hybrid_scorer.py`

Scores are inputs here (no transcendental functions), so `ℚ` models the float
arithmetic of the source exactly. Python `round(x, 6)` is round-half-to-even
at six decimal places, modelled by `pyRoundInt`/`round6`.
-/

/-- Python `round` to the nearest integer, halves to even. -/
def pyRoundInt (y : ℚ) : ℤ :=
  let n := ⌊y⌋
  if y - n < 1/2 then n
  else if 1/2 < y - n then n + 1
  else if n % 2 = 0 then n else n + 1

/-- Python `round(x, 6)`. -/
def round6 (x : ℚ) : ℚ := (pyRoundInt (x * 1000000) : ℚ) / 1000000

/-- Source `ScoredHit`: fused score plus per-source breakdown. -/
structure ScoredHit where
  id : String
  score : ℚ
  shardId : String
  bm25Score : ℚ
  tfidfScore : ℚ
  vectorScore : ℚ
deriving DecidableEq

/-- Source `_min_max_normalise`: scale a score dict into `[0, 1]`; all 1.0 when the
span is zero. -/
def minMaxNormalise (scores : List (String × ℚ)) : List (String × ℚ) :=
  match scores with
  | [] => []
  | p :: rest =>
      let lo := (rest.map (·.2)).foldl min p.2
      let hi := (rest.map (·.2)).foldl max p.2
      if hi - lo = 0 then (p :: rest).map (fun q => (q.1, 1))
      else (p :: rest).map (fun q => (q.1, (q.2 - lo) / (hi - lo)))

/-- The `shard_map` built by repeated `setdefault` over hit lists. -/
def shardMapOf (ls : List (List (String × ℚ × String))) : List (String × String) :=
  ls.foldl (fun m l => l.foldl (fun m h => setDefaultKey m h.1 h.2.2) m) []

/-- Source `linear_combination`: min-max normalise each source, weighted sum, round to
6 places, sort descending, truncate. -/
def linearCombination (bm25Hits tfidfHits vectorHits : List (String × ℚ × String))
    (wB wT wV : ℚ) (topK : ℕ) : List ScoredHit :=
  let bN := minMaxNormalise (pyDict (bm25Hits.map (fun h => (h.1, h.2.1))))
  let tN := minMaxNormalise (pyDict (tfidfHits.map (fun h => (h.1, h.2.1))))
  let vN := minMaxNormalise (pyDict (vectorHits.map (fun h => (h.1, h.2.1))))
  let shardMap := shardMapOf [bm25Hits, tfidfHits, vectorHits]
  let allIds := (keysOf bN ++ keysOf tN ++ keysOf vN).dedup
  let merged := allIds.map (fun d =>
    let b := lookupD bN d 0
    let t := lookupD tN d 0
    let v := lookupD vN d 0
    ScoredHit.mk d (round6 (b * wB + t * wT + v * wV)) (lookupD shardMap d "")
      (round6 b) (round6 t) (round6 v))
  (merged.insertionSort (fun a b => b.score < a.score)).take topK

/-- One ranked list of `reciprocal_rank_fusion`: add `1 / (k + rank)` for each
hit, ranks 1-based. -/
def rrfAddList (sc : List (String × ℚ)) (l : List (String × ℚ × String)) (k : ℤ) :
    List (String × ℚ) :=
  l.enum.foldl
    (fun sc q => setKey sc q.2.1 (lookupD sc q.2.1 0 + 1 / ((k : ℚ) + (q.1 + 1)))) sc

/-- The RRF score dict over all ranked lists. -/
def rrfScores (ls : List (List (String × ℚ × String))) (k : ℤ) : List (String × ℚ) :=
  ls.foldl (fun sc l => rrfAddList sc l k) []

/-- Source `reciprocal_rank_fusion`: fold all lists into the score dict, round, sort
descending, truncate. -/
def reciprocalRankFusion (ls : List (List (String × ℚ × String))) (k : ℤ) (topK : ℕ) :
    List ScoredHit :=
  let shardMap := shardMapOf ls
  let merged := (rrfScores ls k).map
    (fun p => ScoredHit.mk p.1 (round6 p.2) (lookupD shardMap p.1 "") 0 0 0)
  (merged.insertionSort (fun a b => b.score < a.score)).take topK

/-!
Component: Index-version store — `redisearch/storage/index_version_store.py` and
`redisearch/storage/schema.py`

The `index_versions` table is a list of rows; `nextId` models the
autoincrement rowid. The partial unique index
`(index_type, shard_id) WHERE status = 'active'` makes any statement that
would leave two active rows for one pair fail, rolling the transaction back:
`insertVersion` fails when inserting a second active row, and
`activateVersion` fails when the version-targeted update would activate two
rows at once. `activate` itself performs the two UPDATEs of the source inside
one transaction: stale all active rows of the pair, then activate the rows
matching `(type, shard, version)`.
-/

inductive VStatus : Type where
  | building
  | active
  | stale
deriving DecidableEq

structure VRow where
  rid : ℕ
  indexType : String
  shardId : String
  version : ℤ
  status : VStatus
  docCount : ℕ
  filePath : String
  createdAt : String
deriving DecidableEq

structure VState where
  rows : List VRow
  nextId : ℕ
deriving DecidableEq

/-- Number of rows with `status = 'active'` for an `(index_type, shard_id)`. -/
def activeCount (s : VState) (t sh : String) : ℕ :=
  s.rows.countP (fun r => decide (r.indexType = t ∧ r.shardId = sh ∧ r.status = VStatus.active))

/-- Source `IndexVersionStore.insert`: append a row with the caller-supplied status;
the partial unique index rejects a second active row for the pair. -/
def insertVersion (s : VState) (t sh : String) (v : ℤ) (st : VStatus) (dc : ℕ)
    (fp ca : String) : Except Unit VState :=
  if st = VStatus.active ∧ 1 ≤ activeCount s t sh then .error ()
  else .ok ⟨s.rows ++ [⟨s.nextId, t, sh, v, st, dc, fp, ca⟩], s.nextId + 1⟩

/-- First UPDATE of `activate`: all active rows of the pair become stale. -/
def staleStep (t sh : String) (r : VRow) : VRow :=
  if r.indexType = t ∧ r.shardId = sh ∧ r.status = VStatus.active then
    { r with status := VStatus.stale }
  else r

/-- Second UPDATE of `activate`: all rows matching `(type, shard, version)`
become active. -/
def activateStep (t sh : String) (v : ℤ) (r : VRow) : VRow :=
  if r.indexType = t ∧ r.shardId = sh ∧ r.version = v then
    { r with status := VStatus.active }
  else r

/-- Rows matching `(type, shard, version)` — the target of the second UPDATE. -/
def matchedCount (rows : List VRow) (t sh : String) (v : ℤ) : ℕ :=
  rows.countP (fun r => decide (r.indexType = t ∧ r.shardId = sh ∧ r.version = v))

/-- Source `IndexVersionStore.activate`: one transaction staling the old active rows
and activating the target version; the unique index aborts the transaction if
two rows would become active. -/
def activateVersion (s : VState) (t sh : String) (v : ℤ) : Except Unit VState :=
  let staled := s.rows.map (staleStep t sh)
  if 2 ≤ matchedCount staled t sh v then .error ()
  else .ok ⟨staled.map (activateStep t sh v), s.nextId⟩

/-- Source `IndexVersionStore.delete`. -/
def deleteVersion (s : VState) (rid : ℕ) : VState :=
  ⟨s.rows.filter (fun r => r.rid != rid), s.nextId⟩

/-- Source `IndexVersionStore.get_latest_version_number`: `MAX(version)` over the
pair across all statuses, 0 when no row exists. -/
def latestVersion (s : VState) (t sh : String) : ℤ :=
  match (s.rows.filter (fun r => decide (r.indexType = t ∧ r.shardId = sh))).map
    (fun r => r.version) with
  | [] => 0
  | v :: vs => vs.foldl max v

/-- States reachable through the store's mutating operations from an empty
table. -/
inductive VReachable : VState → Prop where
  | init : VReachable ⟨[], 1⟩
  | insert (s s2 : VState) (t sh : String) (v : ℤ) (st : VStatus) (dc : ℕ) (fp ca : String) :
      VReachable s → insertVersion s t sh v st dc fp ca = .ok s2 → VReachable s2
  | activate (s s2 : VState) (t sh : String) (v : ℤ) :
      VReachable s → activateVersion s t sh v = .ok s2 → VReachable s2
  | delete (s : VState) (rid : ℕ) : VReachable s → VReachable (deleteVersion s rid)

/-- The two-building-row state used to refute C6. -/
def vsTwoBuilding : VState :=
  ⟨[⟨1, "bm25", "shard_x", 1, VStatus.building, 3, "p1", "c1"⟩,
    ⟨2, "bm25", "shard_x", 2, VStatus.building, 4, "p2", "c2"⟩], 3⟩

/-!
Component: Raw post store — `redisearch/storage/raw_store.py`

`get_unprocessed_ids` runs a LEFT JOIN from `raw_posts` to `processed_posts`
on `id` and keeps rows where no processed row exists or its
`pipeline_version` is below the requested one. `processed_posts.id` is a
primary key, so each raw id joins at most one processed row; the join is
modelled by `find?` under that nodup hypothesis.
-/

/-- A `processed_posts` row (the fields the query touches). -/
structure ProcRow where
  pid : String
  pipelineVersion : ℤ
deriving DecidableEq

/-- Source `RawPostStore.get_unprocessed_ids(current_version)`. -/
def getUnprocessedIds (raw : List String) (processed : List ProcRow) (v : ℤ) :
    List String :=
  raw.filter (fun rid =>
    match processed.find? (fun p => p.pid == rid) with
    | none => true
    | some p => decide (p.pipelineVersion < v))

/-!
Component: Job queue and worker — `redisearch/storage/job_store.py` and
`redisearch/jobs/worker.py`

The `jobs` table is a list of rows; `nextId` models the autoincrement id and
`clock` stands in for `datetime.now()` so `created_at`/`started_at`/
`completed_at` ordering is preserved. `claim_next` picks the pending job
minimising `(priority, created_at)`, flips it to running, re-reads it, and
returns it only when running. The worker `_tick` claims, dispatches,
`fail`s on an exception (incrementing `retries`), and `retry`s while
`retries < max_retries`.
-/

inductive JStatus : Type where
  | pending
  | running
  | completed
  | failed
deriving DecidableEq

structure Job where
  jid : ℕ
  jobType : String
  status : JStatus
  priority : ℤ
  createdSeq : ℕ
  startedAt : Option ℕ
  completedAt : Option ℕ
  error : Option String
  retries : ℕ
deriving DecidableEq

structure JobsState where
  jobs : List Job
  nextId : ℕ
  clock : ℕ
deriving DecidableEq

/-- Source `JobStore.enqueue`: insert pending with `retries = 0`. -/
def enqueueJob (s : JobsState) (jt : String) (priority : ℤ) : JobsState × ℕ :=
  (⟨s.jobs ++ [⟨s.nextId, jt, .pending, priority, s.clock, none, none, none, 0⟩],
    s.nextId + 1, s.clock + 1⟩, s.nextId)

/-- The `ORDER BY priority ASC, created_at ASC LIMIT 1` selection over pending
jobs (optionally filtered by type). -/
def pickPending (jobs : List Job) (jtFilter : Option String) : Option Job :=
  (jobs.filter (fun j => decide (j.status = JStatus.pending
      ∧ (∀ t, jtFilter = some t → j.jobType = t)))).foldl
    (fun best j =>
      match best with
      | none => some j
      | some b =>
          if j.priority < b.priority ∨ (j.priority = b.priority ∧ j.createdSeq < b.createdSeq)
          then some j else some b)
    none

/-- Source `JobStore.get_by_id`. -/
def getJobById (s : JobsState) (jid : ℕ) : Option Job :=
  s.jobs.find? (fun x => x.jid == jid)

/-- Source `JobStore.claim_next`: select, conditionally update to running, re-read,
and return the row only if it is now running. -/
def claimNext (s : JobsState) (jtFilter : Option String) : Option Job × JobsState :=
  match pickPending s.jobs jtFilter with
  | none => (none, s)
  | some j =>
      let s2 : JobsState :=
        ⟨s.jobs.map (fun x =>
            if x.jid = j.jid ∧ x.status = JStatus.pending then
              { x with status := JStatus.running, startedAt := some s.clock }
            else x),
          s.nextId, s.clock + 1⟩
      match getJobById s2 j.jid with
      | some x => if x.status = JStatus.running then (some x, s2) else (none, s2)
      | none => (none, s2)

/-- Source `JobStore.complete`. -/
def completeJob (s : JobsState) (jid : ℕ) : JobsState :=
  ⟨s.jobs.map (fun x =>
      if x.jid = jid then
        { x with status := JStatus.completed, completedAt := some s.clock }
      else x),
    s.nextId, s.clock + 1⟩

/-- Source `JobStore.fail`: status failed, error recorded, `retries += 1`. -/
def failJob (s : JobsState) (jid : ℕ) (err : String) : JobsState :=
  ⟨s.jobs.map (fun x =>
      if x.jid = jid then
        { x with
          status := JStatus.failed
          completedAt := some s.clock
          error := some err
          retries := x.retries + 1 }
      else x),
    s.nextId, s.clock + 1⟩

/-- Source `JobStore.retry`: back to pending, timestamps and error cleared, retries
preserved. -/
def retryJob (s : JobsState) (jid : ℕ) : JobsState :=
  ⟨s.jobs.map (fun x =>
      if x.jid = jid then
        { x with
          status := JStatus.pending
          startedAt := none
          completedAt := none
          error := none }
      else x),
    s.nextId, s.clock + 1⟩

/-- What a registered handler does with a claimed job. -/
inductive HBehavior : Type where
  | ok
  | err (msg : String)
deriving DecidableEq

/-- Source `Worker._tick` / `run_once`: claim, dispatch by type, complete on success,
fail on exception and auto-retry while `retries < max_retries`. The second
component records whether a handler was invoked (an execution). -/
def workerTick (handlers : String → Option HBehavior) (maxRetries : ℕ) (s : JobsState) :
    JobsState × Bool :=
  match claimNext s none with
  | (none, s2) => (s2, false)
  | (some j, s2) =>
      match handlers j.jobType with
      | none => (failJob s2 j.jid ("No handler registered for " ++ j.jobType), false)
      | some HBehavior.ok => (completeJob s2 j.jid, true)
      | some (HBehavior.err m) =>
          let s3 := failJob s2 j.jid m
          match getJobById s3 j.jid with
          | some u =>
              if u.retries < maxRetries then (retryJob s3 j.jid, true) else (s3, true)
          | none => (s3, true)

/-- Iterate `workerTick`, counting handler executions. -/
def runTicks (handlers : String → Option HBehavior) (maxRetries : ℕ) :
    ℕ → JobsState → JobsState × ℕ
  | 0, s => (s, 0)
  | n + 1, s =>
      match workerTick handlers maxRetries s with
      | (s2, executed) =>
          match runTicks handlers maxRetries n s2 with
          | (s3, c) => (s3, (if executed then 1 else 0) + c)

/-- A handler registry whose only handler always raises. -/
def alwaysRaise : String → Option HBehavior := fun _ => some (.err "ValueError: boom")

/-!
Component: BM25 inverted index — `redisearch/indexing/bm25_index.py`

`postings : term → (doc_id → tf)` and `doc_lengths` are dicts (association
lists). Scoring multiplies by `math.log`, so scores live in `ℝ`; the index
data itself (strings, term frequencies) stays exact.
-/

structure BM25Index where
  k1 : ℝ
  b : ℝ
  postings : List (String × List (String × ℕ))
  docLengths : List (String × ℕ)
  docCount : ℕ
  avgDocLen : ℝ

/-- Dict invariants any index built or loaded by the source satisfies. -/
def BM25WF (idx : BM25Index) : Prop :=
  (keysOf idx.postings).Nodup ∧ (∀ p ∈ idx.postings, (keysOf p.2).Nodup)
  ∧ (keysOf idx.docLengths).Nodup

/-- Source `idf = ln(1 + (doc_count − df + 0.5) / (df + 0.5))`. -/
noncomputable def bm25Idf (docCount df : ℕ) : ℝ :=
  Real.log (1 + (((docCount : ℝ) - (df : ℝ) + 1/2) / ((df : ℝ) + 1/2)))

/-- Source `norm = (1 − b) + b · dl / avg_doc_len` when `avg_doc_len > 0`, else 1. -/
noncomputable def bm25Norm (idx : BM25Index) (dl : ℕ) : ℝ :=
  if 0 < idx.avgDocLen then (1 - idx.b) + idx.b * ((dl : ℝ) / idx.avgDocLen) else 1

/-- Source `tf · (k1 + 1) / (tf + k1 · norm)`. -/
noncomputable def bm25TfWeight (idx : BM25Index) (tf dl : ℕ) : ℝ :=
  ((tf : ℝ) * (idx.k1 + 1)) / ((tf : ℝ) + idx.k1 * bm25Norm idx dl)

/-- One iteration of the scoring loop body for a query token: skip when the
posting list is missing or empty, else add every document's contribution into
the scores dict. -/
noncomputable def bm25Accumulate (idx : BM25Index) (scores : List (String × ℝ))
    (term : String) : List (String × ℝ) :=
  match alookup idx.postings term with
  | none => scores
  | some posting =>
      if posting = [] then scores
      else
        posting.foldl (fun sc pr =>
          setKey sc pr.1 (lookupD sc pr.1 0 +
            bm25Idf idx.docCount posting.length
              * bm25TfWeight idx pr.2 (lookupD idx.docLengths pr.1 0))) scores

/-- The `scores` dict after the loop over ALL query tokens (duplicates
included, as in the source). -/
noncomputable def bm25ScoresMap (idx : BM25Index) (q : List String) :
    List (String × ℝ) :=
  q.foldl (bm25Accumulate idx) []

/-- Source `BM25InvertedIndex.score`: empty query or empty index give `[]`; otherwise
sort the scores dict descending and truncate to `max(0, top_k)`. -/
noncomputable def bm25Score (idx : BM25Index) (q : List String) (topK : ℤ) :
    List (String × ℝ) :=
  if q = [] ∨ idx.docCount = 0 then []
  else ((bm25ScoresMap idx q).insertionSort (fun a b => b.2 < a.2)).take (max 0 topK).toNat

/-- The single contribution of query term `t` to document `d`: zero when `t`
has no (or an empty) posting list or `d` is not in it. -/
noncomputable def bm25TermDocContrib (idx : BM25Index) (t d : String) : ℝ :=
  match alookup idx.postings t with
  | none => 0
  | some posting =>
      if posting = [] then 0
      else
        match alookup posting d with
        | none => 0
        | some tf =>
            bm25Idf idx.docCount posting.length
              * bm25TfWeight idx tf (lookupD idx.docLengths d 0)

/-!
Component: TF-IDF index — `redisearch/indexing/tfidf_index.py`
and vector index — `redisearch/indexing/vector_index.py`

The TF-IDF state that scoring and persistence touch is
`(doc_ids, vocabulary, idf, matrix)`; an unfitted vectorizer (`None`) goes
with empty `doc_ids` and is modelled by empty vocabulary/idf/matrix. The
vector index stores its float32 rows in the FAISS file (exact round-trip) and
a `{doc_ids, dim}` sidecar; `load` reads both back WITHOUT comparing the
vector count against the doc-id count.
-/

/-- The BM25 msgpack payload: postings serialised as
`term → [(doc_id, tf)]` item lists. -/
structure BM25Payload where
  pk1 : ℝ
  pb : ℝ
  ppostings : List (String × List (String × ℕ))
  pdocLengths : List (String × ℕ)
  pdocCount : ℕ
  pavgDocLen : ℝ

/-- Source `BM25InvertedIndex.save`: dict items become pair lists (identity in the
association-list model). -/
def bm25Save (idx : BM25Index) : BM25Payload :=
  ⟨idx.k1, idx.b, idx.postings, idx.docLengths, idx.docCount, idx.avgDocLen⟩

/-- Source `BM25InvertedIndex.load`: dict comprehensions rebuild the postings and
doc-length dicts from the payload. -/
def bm25Load (p : BM25Payload) : BM25Index :=
  ⟨p.pk1, p.pb, pyDict (p.ppostings.map (fun pr => (pr.1, pyDict pr.2))),
    pyDict p.pdocLengths, p.pdocCount, p.pavgDocLen⟩

structure TFIDFIndex where
  docIds : List String
  vocab : List (String × ℕ)
  idf : List ℝ
  matrix : List (List ℝ)

/-- An unbuilt/empty index has no fitted vectorizer: all derived fields empty. -/
def TFIDFWF (idx : TFIDFIndex) : Prop :=
  idx.docIds = [] → idx.vocab = [] ∧ idx.idf = [] ∧ idx.matrix = []

/-- The msgpack payload `{doc_ids, vocabulary, idf, matrix}`. -/
structure TFIDFPayload where
  pdocIds : List String
  pvocab : List (String × ℕ)
  pidf : List ℝ
  pmatrix : List (List ℝ)

/-- Source `TFIDFIndex.save`. -/
def tfidfSave (idx : TFIDFIndex) : TFIDFPayload :=
  ⟨idx.docIds, idx.vocab, idx.idf, idx.matrix⟩

/-- Source `TFIDFIndex.load`: doc ids first; an empty corpus returns the unfitted
index, otherwise the vectorizer state is restored from the payload. -/
def tfidfLoad (p : TFIDFPayload) : TFIDFIndex :=
  if p.pdocIds.length = 0 then ⟨p.pdocIds, [], [], []⟩
  else ⟨p.pdocIds, p.pvocab, p.pidf, p.pmatrix⟩

noncomputable def l2normR (v : List ℝ) : ℝ :=
  Real.sqrt ((v.map (fun x => x ^ 2)).sum)

/-- Source `sklearn.cosine_similarity` on two rows. -/
noncomputable def cosineSim (a b : List ℝ) : ℝ :=
  if l2normR a = 0 ∨ l2normR b = 0 then 0
  else (List.zipWith (· * ·) a b).sum / (l2normR a * l2normR b)

/-- The transformed query vector: per column, raw count of the vocabulary
terms mapped to it times the idf, then L2-normalised (zero stays zero). -/
noncomputable def tfidfQueryVec (idx : TFIDFIndex) (q : List String) : List ℝ :=
  let raw := (List.range idx.idf.length).map (fun c =>
    (((idx.vocab.filter (fun pr => pr.2 == c)).map
      (fun pr => ((q.count pr.1 : ℕ) : ℝ))).sum) * idx.idf.getD c 0)
  let n := l2normR raw
  if n = 0 then raw else raw.map (fun x => x / n)

/-- Source `TFIDFIndex.score`: cosine against every row, rank descending, keep
strictly positive similarities, truncate to `top_k`. -/
noncomputable def tfidfScore (idx : TFIDFIndex) (q : List String) (topK : ℕ) :
    List (String × ℝ) :=
  if q = [] ∨ idx.docIds = [] then []
  else
    let qv := tfidfQueryVec idx q
    let sims := idx.matrix.map (fun row => cosineSim qv row)
    let ranked := ((List.range sims.length).map (fun i => (i, sims.getD i 0))).insertionSort
      (fun a b => b.2 < a.2)
    (ranked.take topK).filterMap (fun pr =>
      if 0 < pr.2 then some (idx.docIds.getD pr.1 "", pr.2) else none)

structure VectorIndex where
  dim : ℕ
  docIds : List String
  index : Option (List (List ℝ))
  docCount : ℕ

/-- The persisted pair: the FAISS file (the stored rows, float32-exact) and
the `doc_ids.msgpack` sidecar `{doc_ids, dim}`. -/
structure VectorArtifact where
  faissVectors : List (List ℝ)
  faissDim : ℕ
  sideDocIds : List String
  sideDim : ℕ

/-- Source `VectorIndex.save`: `faiss.write_index(None, …)` raises when the index was
never built; otherwise both files are written. -/
def vectorSave (idx : VectorIndex) : Except Unit VectorArtifact :=
  match idx.index with
  | none => .error ()
  | some vecs => .ok ⟨vecs, idx.dim, idx.docIds, idx.dim⟩

/-- Source `VectorIndex.load`: read the sidecar, set `doc_count = len(doc_ids)`, read
the FAISS file. No comparison of the two counts is performed. -/
def vectorLoad (a : VectorArtifact) : VectorIndex :=
  ⟨a.sideDim, a.sideDocIds, some a.faissVectors, a.sideDocIds.length⟩

/-- Source `VectorIndex.search`: normalise the query, inner-product against every
row, take the `min(top_k, doc_count)` best, map indices to doc ids —
`self._doc_ids[idx]` raises when a FAISS index falls outside the doc-id list
(possible exactly in the corrupt, mismatched-count case). -/
noncomputable def vectorSearch (idx : VectorIndex) (q : List ℝ) (topK : ℕ) :
    Except Unit (List (String × ℝ)) :=
  match idx.index with
  | none => .ok []
  | some vecs =>
      if idx.docCount = 0 then .ok []
      else
        let n := l2normR q
        let qn := if 0 < n then q.map (fun x => x / n) else q
        let sims := vecs.map (fun row => (List.zipWith (· * ·) qn row).sum)
        let k := min topK idx.docCount
        let ranked := ((List.range sims.length).map
          (fun i => (i, sims.getD i 0))).insertionSort (fun a b => b.2 < a.2)
        if (ranked.take k).all (fun pr => decide (pr.1 < idx.docIds.length)) then
          .ok ((ranked.take k).map (fun pr => (idx.docIds.getD pr.1 "", pr.2)))
        else .error ()

/-! Theorems. -/

theorem heapPush_length (heap : List (ℚ × String)) (x : ℚ × String) :
    (heapPush heap x).length = heap.length + 1 := by
  induction heap with
  | nil => rfl
  | cons y t ih =>
      rw [heapPush]
      split
      · rfl
      · simp [ih]

theorem heapReplace_length (heap : List (ℚ × String)) (x : ℚ × String)
    (h : heap ≠ []) : (heapReplace heap x).length = heap.length := by
  cases heap with
  | nil => exact absurd rfl h
  | cons y t => simp [heapReplace, heapPush_length]

theorem collectStep_ok (heap : List (ℚ × String)) (k : ℕ) (score : ℚ) (term : String)
    (hk : 1 ≤ k) (hlen : heap.length ≤ k) :
    ∃ h2, collectStep heap k score term = .ok h2 ∧ h2.length ≤ k := by
  unfold collectStep
  by_cases hl : heap.length < k
  · refine ⟨_, by rw [if_pos hl], ?_⟩
    rw [heapPush_length]
    omega
  · rw [if_neg hl]
    cases heap with
    | nil => simp at hl; omega
    | cons y t =>
        obtain ⟨ys, yw⟩ := y
        dsimp only
        by_cases hs : ys < score
        · refine ⟨_, by rw [if_pos hs], ?_⟩
          rw [heapReplace_length _ _ (by simp)]
          exact hlen
        · exact ⟨_, by rw [if_neg hs], hlen⟩

mutual

theorem collectNode_ok : ∀ (n : TrieNode) (heap : List (ℚ × String)) (k : ℕ),
    1 ≤ k → heap.length ≤ k →
    ∃ h2, collectNode n heap k = .ok h2 ∧ h2.length ≤ k
  | .mk children isTerm term score, heap, k, hk, hlen => by
      rw [collectNode]
      cases isTerm with
      | false =>
          simp only [if_neg (by simp : ¬(false = true))]
          exact collectChildren_ok children heap k hk hlen
      | true =>
          simp only [if_pos rfl]
          obtain ⟨h2, heq, hle⟩ := collectStep_ok heap k score term hk hlen
          rw [heq]
          exact collectChildren_ok children h2 k hk hle

theorem collectChildren_ok : ∀ (cs : List (Char × TrieNode)) (heap : List (ℚ × String))
    (k : ℕ), 1 ≤ k → heap.length ≤ k →
    ∃ h2, collectChildren cs heap k = .ok h2 ∧ h2.length ≤ k
  | [], heap, k, _, hlen => ⟨heap, rfl, hlen⟩
  | (c, n) :: rest, heap, k, hk, hlen => by
      rw [collectChildren]
      obtain ⟨h2, heq, hle⟩ := collectNode_ok n heap k hk hlen
      rw [heq]
      exact collectChildren_ok rest h2 k hk hle

end

theorem alookup_nil {α β : Type} [DecidableEq α] (k : α) :
    alookup ([] : List (α × β)) k = none := rfl

theorem alookup_cons {α β : Type} [DecidableEq α] (p : α × β) (l : List (α × β)) (k : α) :
    alookup (p :: l) k = if p.1 = k then some p.2 else alookup l k := by
  by_cases h : p.1 = k
  · rw [alookup, List.find?_cons_of_pos _ (by simp [h]), if_pos h]
    rfl
  · rw [alookup, List.find?_cons_of_neg _ (by simp [h]), if_neg h]
    rfl

theorem alookup_setKey_self {α β : Type} [DecidableEq α] (l : List (α × β)) (k : α) (v : β) :
    alookup (setKey l k v) k = some v := by
  induction l with
  | nil => simp [setKey, alookup_cons]
  | cons p rest ih =>
      by_cases h : p.1 = k
      · simp [setKey, h, alookup_cons]
      · simp [setKey, h, alookup_cons, ih]

theorem alookup_setKey_ne {α β : Type} [DecidableEq α] (l : List (α × β)) (k k2 : α) (v : β)
    (h : k2 ≠ k) : alookup (setKey l k v) k2 = alookup l k2 := by
  have h2 : k ≠ k2 := Ne.symm h
  induction l with
  | nil => simp [setKey, alookup_cons, alookup_nil, h2]
  | cons p rest ih =>
      by_cases hp : p.1 = k
      · subst hp
        simp [setKey, alookup_cons, h2]
      · simp [setKey, hp, alookup_cons, ih]

theorem mem_setKey {α β : Type} [DecidableEq α] (l : List (α × β)) (k : α) (v : β)
    (p : α × β) (hp : p ∈ setKey l k v) : p ∈ l ∨ p = (k, v) := by
  induction l with
  | nil => simpa [setKey] using hp
  | cons q rest ih =>
      by_cases hq : q.1 = k
      · simp only [setKey, if_pos hq, List.mem_cons] at hp
        rcases hp with h | h
        · exact Or.inr h
        · exact Or.inl (List.mem_cons_of_mem _ h)
      · simp only [setKey, if_neg hq, List.mem_cons] at hp
        rcases hp with h | h
        · exact Or.inl (by simp [h])
        · rcases ih h with h2 | h2
          · exact Or.inl (List.mem_cons_of_mem _ h2)
          · exact Or.inr h2

theorem mem_keys_setKey {α β : Type} [DecidableEq α] (l : List (α × β)) (k : α) (v : β)
    (x : α) : x ∈ keysOf (setKey l k v) ↔ x ∈ keysOf l ∨ x = k := by
  induction l with
  | nil => simp [setKey, keysOf]
  | cons q rest ih =>
      by_cases hq : q.1 = k
      · subst hq
        simp [setKey, keysOf]
        tauto
      · simp [setKey, hq, keysOf] at ih ⊢
        tauto

theorem alookup_eq_none_iff {α β : Type} [DecidableEq α] (l : List (α × β)) (k : α) :
    alookup l k = none ↔ k ∉ keysOf l := by
  induction l with
  | nil => simp [alookup_nil, keysOf]
  | cons p rest ih =>
      by_cases h : p.1 = k
      · simp [alookup_cons, h, keysOf]
      · have h2 : k ≠ p.1 := fun hh => h hh.symm
        simp [alookup_cons, h, keysOf, ih, h2]

theorem mem_of_alookup_eq_some {α β : Type} [DecidableEq α] {l : List (α × β)} {k : α}
    {v : β} (h : alookup l k = some v) : (k, v) ∈ l := by
  induction l with
  | nil => simp [alookup_nil] at h
  | cons p rest ih =>
      by_cases hp : p.1 = k
      · rw [alookup_cons, if_pos hp] at h
        obtain ⟨p1, p2⟩ := p
        have hv : p2 = v := by injection h
        simp only at hp
        subst hv
        subst hp
        exact List.mem_cons_self _ _
      · rw [alookup_cons, if_neg hp] at h
        exact List.mem_cons_of_mem _ (ih h)

theorem setKey_of_not_mem {α β : Type} [DecidableEq α] (l : List (α × β)) (k : α) (v : β)
    (h : k ∉ keysOf l) : setKey l k v = l ++ [(k, v)] := by
  induction l with
  | nil => simp [setKey]
  | cons p rest ih =>
      simp only [keysOf, List.map_cons, List.mem_cons] at h
      push_neg at h
      have h2 : ¬p.1 = k := fun hh => h.1 hh.symm
      simp [setKey, h2, ih (by simpa [keysOf] using h.2)]

theorem pyDict_go_eq {α β : Type} [DecidableEq α] (l acc : List (α × β))
    (h : (keysOf acc ++ keysOf l).Nodup) :
    l.foldl (fun acc p => setKey acc p.1 p.2) acc = acc ++ l := by
  induction l generalizing acc with
  | nil => simp
  | cons p rest ih =>
      have hk : p.1 ∉ keysOf acc := by
        intro hmem
        have := List.disjoint_of_nodup_append h
        exact this hmem (by simp [keysOf])
      have hstep : setKey acc p.1 p.2 = acc ++ [(p.1, p.2)] := setKey_of_not_mem _ _ _ hk
      have hnd : (keysOf (acc ++ [(p.1, p.2)]) ++ keysOf rest).Nodup := by
        simp only [keysOf, List.map_append, List.map_cons, List.map_nil] at h ⊢
        simpa [List.append_assoc] using h
      calc (p :: rest).foldl (fun acc p => setKey acc p.1 p.2) acc
          = rest.foldl (fun acc p => setKey acc p.1 p.2) (acc ++ [(p.1, p.2)]) := by
            simp [hstep]
        _ = acc ++ [(p.1, p.2)] ++ rest := ih _ hnd
        _ = acc ++ p :: rest := by simp

/-- A dict built from pairs with distinct keys is those pairs unchanged. -/
theorem pyDict_eq_self {α β : Type} [DecidableEq α] (l : List (α × β))
    (h : (keysOf l).Nodup) : pyDict l = l := by
  simpa [pyDict] using pyDict_go_eq l [] (by simpa [keysOf] using h)

theorem alookup_append_left_none {α β : Type} [DecidableEq α] (l1 l2 : List (α × β))
    (k : α) (h : alookup l1 k = none) : alookup (l1 ++ l2) k = alookup l2 k := by
  induction l1 with
  | nil => simp
  | cons p rest ih =>
      rw [alookup_cons] at h
      by_cases hp : p.1 = k
      · rw [if_pos hp] at h
        exact absurd h (by simp)
      · rw [if_neg hp] at h
        rw [List.cons_append, alookup_cons, if_neg hp]
        exact ih h

theorem scoreAt_empty (cs : List Char) : scoreAt TrieNode.empty cs = 0 := by
  cases cs with
  | nil => rfl
  | cons c rest => rfl

/-- Inserting along a path sets the score at that path to the max of the old
score field (0 for a missing node) and the inserted score. -/
theorem scoreAt_insertPath (n : TrieNode) (path : List Char) (termL : String) (s : ℚ) :
    scoreAt (trieInsertPath n path termL s) path = max (scoreAt n path) s := by
  induction path generalizing n with
  | nil => rfl
  | cons c cs ih =>
      cases hc : alookup n.children c with
      | some child =>
          rw [trieInsertPath]
          rw [hc]
          show scoreAt (TrieNode.mk (setKey n.children c (trieInsertPath child cs termL s))
            n.isTerminal n.term n.score) (c :: cs) = _
          rw [scoreAt, nodeAt]
          rw [show (TrieNode.mk (setKey n.children c (trieInsertPath child cs termL s))
            n.isTerminal n.term n.score).children
              = setKey n.children c (trieInsertPath child cs termL s) from rfl]
          rw [alookup_setKey_self]
          rw [show scoreAt n (c :: cs) = scoreAt child cs by rw [scoreAt, nodeAt, hc]; rfl]
          exact ih child
      | none =>
          rw [trieInsertPath]
          rw [hc]
          rw [scoreAt, nodeAt]
          rw [show (TrieNode.mk (n.children ++ [(c, trieInsertPath TrieNode.empty cs termL s)])
            n.isTerminal n.term n.score).children
              = n.children ++ [(c, trieInsertPath TrieNode.empty cs termL s)] from rfl]
          rw [alookup_append_left_none _ _ _ hc]
          rw [alookup_cons]
          rw [if_pos rfl]
          rw [show scoreAt n (c :: cs) = 0 by rw [scoreAt, nodeAt, hc]]
          have := ih TrieNode.empty
          rw [scoreAt_empty] at this
          exact this

/-- Claim C4, counterexample: on a fresh trie, `insert("a", -1); insert("a", -2)`
stores score 0 (the fresh node default), not `max(-1, -2) = -1`. -/
theorem claim_C4_counterexample :
    ¬ scoreAt ((Trie.empty.insert "a" (-1)).insert "a" (-2)).root (pyLowerChars "a")
      = max (-1 : ℚ) (-2) := by decide

/-- Claim C4 (amended): after `insert(t, s1); insert(t, s2)` the score stored at
the node for `lower(t)` equals the maximum of the node's previous score field
(0 when the node was absent, as for a fresh trie) and `s1` and `s2`; it equals
`max(s1, s2)` exactly when that previous score does not exceed it. -/
theorem claim_C4_trie_insert_score (T : Trie) (t : String) (s1 s2 : ℚ) :
    scoreAt ((T.insert t s1).insert t s2).root (pyLowerChars t)
      = max (scoreAt T.root (pyLowerChars t)) (max s1 s2) := by
  show scoreAt (trieInsertPath (trieInsertPath T.root (pyLowerChars t) (pyLower t) s1)
    (pyLowerChars t) (pyLower t) s2) (pyLowerChars t) = _
  rw [scoreAt_insertPath, scoreAt_insertPath, max_assoc]

/-- Claim C10, counterexample: `search(prefix, top_k = 0)` raises IndexError
(`heap[0]` on an empty heap) as soon as a terminal node is reached, here on a
one-term trie with the empty prefix. -/
theorem claim_C10_counterexample :
    Trie.search (Trie.empty.insert "a" 1) "" 0 = .error () := by rfl

/-- Claim C10 (amended): for every trie, prefix and `top_k ≥ 1`,
`search(prefix, top_k)` returns without raising a list of at most `top_k`
suggestions (totality fails only at `top_k = 0`, where a matching terminal
makes `heap[0]` raise). -/
theorem claim_C10_search_total (t : Trie) (pre : String) (topK : ℕ) (hk : 1 ≤ topK) :
    ∃ res, Trie.search t pre topK = .ok res ∧ res.length ≤ topK := by
  unfold Trie.search
  cases hwalk : nodeAt t.root (pyLowerChars pre) with
  | none => exact ⟨[], rfl, by simp⟩
  | some n =>
      obtain ⟨h2, heq, hle⟩ := collectNode_ok n [] topK hk (by simp)
      refine ⟨(h2.insertionSort (fun a b => b.1 < a.1)).map (fun p => Suggestion.mk p.2 p.1),
        ?_, ?_⟩
      · dsimp only
        rw [heq]
      · rw [List.length_map, List.length_insertionSort]
        exact hle

/-- Witness for C10: the theorem applied to a concrete trie, prefix and
`top_k = 2`. -/
theorem claim_C10_witness :
    1 ≤ 2 ∧ ∃ res, Trie.search (Trie.empty.insert "Py" 10) "p" 2 = .ok res
      ∧ res.length ≤ 2 :=
  ⟨by decide, claim_C10_search_total (Trie.empty.insert "Py" 10) "p" 2 (by decide)⟩

theorem foldl_max_init_le {α : Type} [LinearOrder α] (l : List α) (a : α) : a ≤ l.foldl max a := by
  induction l generalizing a with
  | nil => exact le_refl a
  | cons b t ih => exact le_trans (le_max_left a b) (ih (max a b))

theorem mem_le_foldl_max {α : Type} [LinearOrder α] (l : List α) (a x : α) (hx : x ∈ l) : x ≤ l.foldl max a := by
  induction l generalizing a with
  | nil => cases hx
  | cons b t ih =>
      rcases List.mem_cons.mp hx with rfl | hmem
      · exact le_trans (le_max_right a x) (foldl_max_init_le t (max a x))
      · exact ih (max a b) hmem

theorem foldl_min_init_ge {α : Type} [LinearOrder α] (l : List α) (a : α) : l.foldl min a ≤ a := by
  induction l generalizing a with
  | nil => exact le_refl a
  | cons b t ih => exact le_trans (ih (min a b)) (min_le_left a b)

theorem foldl_min_le_mem {α : Type} [LinearOrder α] (l : List α) (a x : α) (hx : x ∈ l) : l.foldl min a ≤ x := by
  induction l generalizing a with
  | nil => cases hx
  | cons b t ih =>
      rcases List.mem_cons.mp hx with rfl | hmem
      · exact le_trans (foldl_min_init_ge t (min a x)) (min_le_right a x)
      · exact ih (min a b) hmem

/-- Every value produced by `_min_max_normalise` lies in `[0, 1]`. -/
theorem minMaxNormalise_bounds (scores : List (String × ℚ)) :
    ∀ p ∈ minMaxNormalise scores, 0 ≤ p.2 ∧ p.2 ≤ 1 := by
  intro p hp
  match scores with
  | [] => cases hp
  | q :: rest =>
      rw [minMaxNormalise] at hp
      set lo := (rest.map (·.2)).foldl min q.2 with hlo
      set hi := (rest.map (·.2)).foldl max q.2 with hhi
      have hbound : ∀ r ∈ q :: rest, lo ≤ r.2 ∧ r.2 ≤ hi := by
        intro r hr
        rcases List.mem_cons.mp hr with rfl | hmem
        · exact ⟨foldl_min_init_ge _ _, foldl_max_init_le _ _⟩
        · exact ⟨foldl_min_le_mem _ _ _ (List.mem_map_of_mem _ hmem),
            mem_le_foldl_max _ _ _ (List.mem_map_of_mem _ hmem)⟩
      by_cases hspan : hi - lo = 0
      · rw [if_pos hspan] at hp
        obtain ⟨r, _, rfl⟩ := List.mem_map.mp hp
        norm_num
      · rw [if_neg hspan] at hp
        obtain ⟨r, hr, rfl⟩ := List.mem_map.mp hp
        have hr2 := hbound r hr
        have hpos : 0 < hi - lo := by
          have : lo ≤ hi := le_trans (foldl_min_init_ge _ _) (foldl_max_init_le _ _)
          rcases lt_or_eq_of_le this with h | h
          · linarith
          · exact absurd (by linarith) hspan
        constructor
        · exact div_nonneg (by linarith [hr2.1]) (le_of_lt hpos)
        · rw [div_le_one hpos]
          linarith [hr2.2]

/-- Source `d.get(k, dflt)` is either the default or the value of some entry. -/
theorem lookupD_cases {β : Type} (l : List (String × β)) (d : String) (dflt : β) :
    lookupD l d dflt = dflt ∨ ∃ p ∈ l, lookupD l d dflt = p.2 := by
  cases h : alookup l d with
  | none => left; rw [lookupD, h]; rfl
  | some v =>
      right
      exact ⟨(d, v), mem_of_alookup_eq_some h, by rw [lookupD, h]; rfl⟩

theorem pyRoundInt_ge_floor (y : ℚ) : ⌊y⌋ ≤ pyRoundInt y := by
  rw [pyRoundInt]
  split
  · exact le_refl _
  · split
    · omega
    · split <;> omega

theorem pyRoundInt_nonneg (y : ℚ) (h : 0 ≤ y) : 0 ≤ pyRoundInt y :=
  le_trans (Int.le_floor.mpr (by exact_mod_cast h)) (pyRoundInt_ge_floor y)

theorem pyRoundInt_le (y : ℚ) (B : ℤ) (h : y ≤ B) : pyRoundInt y ≤ B := by
  have hfloor : ⌊y⌋ ≤ B := by
    have hm := Int.floor_mono h
    rwa [Int.floor_intCast] at hm
  rw [pyRoundInt]
  split
  · exact hfloor
  · rename_i hlt
    push_neg at hlt
    have hy : (⌊y⌋ : ℚ) + 1/2 ≤ y := by linarith
    have hB : (⌊y⌋ : ℚ) + 1/2 ≤ (B : ℚ) := le_trans hy h
    have : ⌊y⌋ + 1 ≤ B := by
      by_contra hc
      push_neg at hc
      have : B ≤ ⌊y⌋ := by omega
      have : (B : ℚ) ≤ (⌊y⌋ : ℚ) := by exact_mod_cast this
      linarith
    split
    · exact this
    · split <;> omega

theorem pyRoundInt_ge_one (y : ℚ) (h : 1 ≤ y) : 1 ≤ pyRoundInt y := by
  refine le_trans ?_ (pyRoundInt_ge_floor y)
  have : (1 : ℤ) ≤ ⌊y⌋ := Int.le_floor.mpr (by exact_mod_cast h)
  exact this

theorem round6_nonneg (x : ℚ) (h : 0 ≤ x) : 0 ≤ round6 x := by
  rw [round6]
  have : (0 : ℤ) ≤ pyRoundInt (x * 1000000) := pyRoundInt_nonneg _ (by positivity)
  positivity

theorem round6_le_one (x : ℚ) (h : x ≤ 1) : round6 x ≤ 1 := by
  rw [round6]
  have hle : pyRoundInt (x * 1000000) ≤ (1000000 : ℤ) := pyRoundInt_le _ _ (by push_cast; linarith)
  rw [div_le_one (by norm_num)]
  exact_mod_cast hle

theorem round6_ge_millionth (x : ℚ) (h : 1/1000000 ≤ x) : 1/1000000 ≤ round6 x := by
  rw [round6]
  have hge : (1 : ℤ) ≤ pyRoundInt (x * 1000000) := pyRoundInt_ge_one _ (by linarith)
  rw [div_le_div_iff₀ (by norm_num) (by norm_num)]
  linarith [show (1 : ℚ) ≤ (pyRoundInt (x * 1000000) : ℚ) from by exact_mod_cast hge]

theorem mem_enumFrom_bounds {α : Type} (l : List α) (n : ℕ) (q : ℕ × α)
    (hq : q ∈ l.enumFrom n) : n ≤ q.1 ∧ q.1 < n + l.length := by
  induction l generalizing n with
  | nil => cases hq
  | cons e t ih =>
      rw [List.enumFrom] at hq
      rcases List.mem_cons.mp hq with rfl | hmem
      · simp
      · have := ih (n + 1) hmem
        constructor <;> [omega; (simp only [List.length_cons]; omega)]

theorem exists_enumFrom_key {α : Type} (l : List (String × α)) (n : ℕ) (x : String) :
    (∃ q ∈ l.enumFrom n, (q.2).1 = x) ↔ ∃ e ∈ l, e.1 = x := by
  induction l generalizing n with
  | nil => simp [List.enumFrom]
  | cons e t ih =>
      rw [List.enumFrom]
      constructor
      · rintro ⟨q, hq, hx⟩
        rcases List.mem_cons.mp hq with rfl | hmem
        · exact ⟨e, List.mem_cons_self _ _, hx⟩
        · obtain ⟨e2, he2, hx2⟩ := (ih (n + 1)).mp ⟨q, hmem, hx⟩
          exact ⟨e2, List.mem_cons_of_mem _ he2, hx2⟩
      · rintro ⟨e2, he2, hx⟩
        rcases List.mem_cons.mp he2 with rfl | hmem
        · exact ⟨(n, e2), List.mem_cons_self _ _, hx⟩
        · obtain ⟨q, hq, hx2⟩ := (ih (n + 1)).mpr ⟨e2, hmem, hx⟩
          exact ⟨q, List.mem_cons_of_mem _ hq, hx2⟩

theorem rrfFold_inv (k : ℤ) (pl : List (ℕ × (String × ℚ × String)))
    (hc : ∀ q ∈ pl, (1 : ℚ)/1000000 ≤ 1 / ((k : ℚ) + (q.1 + 1)))
    (sc : List (String × ℚ)) (hsc : ∀ p ∈ sc, (1 : ℚ)/1000000 ≤ p.2) :
    ∀ p ∈ pl.foldl
      (fun sc q => setKey sc q.2.1 (lookupD sc q.2.1 0 + 1 / ((k : ℚ) + (q.1 + 1)))) sc,
      (1 : ℚ)/1000000 ≤ p.2 := by
  induction pl generalizing sc with
  | nil => exact hsc
  | cons q t ih =>
      rw [List.foldl_cons]
      refine ih (fun r hr => hc r (List.mem_cons_of_mem _ hr)) _ ?_
      intro p hp
      rcases mem_setKey _ _ _ _ hp with hmem | rfl
      · exact hsc p hmem
      · have hold : 0 ≤ lookupD sc q.2.1 0 := by
          rcases lookupD_cases sc q.2.1 0 with h0 | ⟨r, hr, heq⟩
          · rw [h0]
          · rw [heq]
            linarith [hsc r hr]
        have hcq := hc q (List.mem_cons_self _ _)
        simp only
        linarith

theorem rrfAddList_inv (k : ℤ) (l : List (String × ℚ × String))
    (hk : 0 ≤ k) (hlen : (l.length : ℤ) + k ≤ 1000000)
    (sc : List (String × ℚ)) (hsc : ∀ p ∈ sc, (1 : ℚ)/1000000 ≤ p.2) :
    ∀ p ∈ rrfAddList sc l k, (1 : ℚ)/1000000 ≤ p.2 := by
  refine rrfFold_inv k l.enum ?_ sc hsc
  intro q hq
  have hb := mem_enumFrom_bounds l 0 q hq
  have hqlt : q.1 < l.length := by omega
  have hden_pos : (0 : ℚ) < (k : ℚ) + (q.1 + 1) := by
    have h1 : (0 : ℚ) ≤ (k : ℚ) := by exact_mod_cast hk
    have h2 : (0 : ℚ) ≤ (q.1 : ℚ) := by positivity
    linarith
  have hden_le : (k : ℚ) + (q.1 + 1) ≤ 1000000 := by
    have h1 : ((q.1 : ℚ) + 1) ≤ (l.length : ℚ) := by exact_mod_cast hqlt
    have h2 : (l.length : ℚ) + (k : ℚ) ≤ 1000000 := by exact_mod_cast hlen
    linarith
  calc (1 : ℚ)/1000000 ≤ 1 / ((k : ℚ) + (q.1 + 1)) := by
        apply one_div_le_one_div_of_le hden_pos hden_le
    _ = 1 / ((k : ℚ) + (q.1 + 1)) := rfl

theorem rrfScores_go_inv (ls : List (List (String × ℚ × String))) (k : ℤ) (hk : 0 ≤ k)
    (hlen : ∀ l ∈ ls, (l.length : ℤ) + k ≤ 1000000)
    (sc : List (String × ℚ)) (hsc : ∀ p ∈ sc, (1 : ℚ)/1000000 ≤ p.2) :
    ∀ p ∈ ls.foldl (fun sc l => rrfAddList sc l k) sc, (1 : ℚ)/1000000 ≤ p.2 := by
  induction ls generalizing sc with
  | nil => exact hsc
  | cons l t ih =>
      rw [List.foldl_cons]
      exact ih (fun m hm => hlen m (List.mem_cons_of_mem _ hm)) _
        (rrfAddList_inv k l hk (hlen l (List.mem_cons_self _ _)) sc hsc)

theorem keys_rrfFold (k : ℤ) (pl : List (ℕ × (String × ℚ × String)))
    (sc : List (String × ℚ)) (x : String) :
    x ∈ keysOf (pl.foldl
      (fun sc q => setKey sc q.2.1 (lookupD sc q.2.1 0 + 1 / ((k : ℚ) + (q.1 + 1)))) sc)
    ↔ x ∈ keysOf sc ∨ ∃ q ∈ pl, (q.2).1 = x := by
  induction pl generalizing sc with
  | nil => simp
  | cons q t ih =>
      rw [List.foldl_cons, ih]
      rw [mem_keys_setKey]
      constructor
      · rintro (⟨h | h⟩ | ⟨r, hr, hx⟩)
        · exact Or.inl h
        · exact Or.inr ⟨q, List.mem_cons_self _ _, h.symm⟩
        · exact Or.inr ⟨r, List.mem_cons_of_mem _ hr, hx⟩
      · rintro (h | ⟨r, hr, hx⟩)
        · exact Or.inl (Or.inl h)
        · rcases List.mem_cons.mp hr with rfl | hmem
          · exact Or.inl (Or.inr hx.symm)
          · exact Or.inr ⟨r, hmem, hx⟩

theorem keys_rrfAddList (k : ℤ) (l : List (String × ℚ × String))
    (sc : List (String × ℚ)) (x : String) :
    x ∈ keysOf (rrfAddList sc l k) ↔ x ∈ keysOf sc ∨ ∃ e ∈ l, e.1 = x := by
  rw [rrfAddList, keys_rrfFold]
  rw [show (l.enum = l.enumFrom 0) from rfl]
  rw [exists_enumFrom_key]

theorem keys_rrfScores_go (ls : List (List (String × ℚ × String))) (k : ℤ)
    (sc : List (String × ℚ)) (x : String) :
    x ∈ keysOf (ls.foldl (fun sc l => rrfAddList sc l k) sc)
    ↔ x ∈ keysOf sc ∨ ∃ l ∈ ls, ∃ e ∈ l, e.1 = x := by
  induction ls generalizing sc with
  | nil => simp
  | cons l t ih =>
      rw [List.foldl_cons, ih, keys_rrfAddList]
      constructor
      · rintro (⟨h | ⟨e, he, hx⟩⟩ | ⟨m, hm, he⟩)
        · exact Or.inl h
        · exact Or.inr ⟨l, List.mem_cons_self _ _, e, he, hx⟩
        · exact Or.inr ⟨m, List.mem_cons_of_mem _ hm, he⟩
      · rintro (h | ⟨m, hm, e, he, hx⟩)
        · exact Or.inl (Or.inl h)
        · rcases List.mem_cons.mp hm with rfl | hmem
          · exact Or.inl (Or.inr ⟨e, he, hx⟩)
          · exact Or.inr ⟨m, hmem, e, he, hx⟩

/-- Claim C8, counterexample: with `k = 2000000`, a document appearing at rank
1 of the single input list is returned by `reciprocal_rank_fusion` with score
`round(1/2000001, 6) = 0.0` — not strictly positive. -/
theorem claim_C8_counterexample :
    ¬ ∀ h ∈ reciprocalRankFusion [[("d", (0 : ℚ), "s")]] 2000000 20, 0 < h.score := by
  intro hall
  have key : reciprocalRankFusion [[("d", (0 : ℚ), "s")]] 2000000 20
      = [ScoredHit.mk "d" (round6 (0 + 1 / (((2000000 : ℤ) : ℚ) + (((0 : ℕ) : ℚ) + 1))))
          "s" 0 0 0] := rfl
  have harg : (0 + 1 / (((2000000 : ℤ) : ℚ) + (((0 : ℕ) : ℚ) + 1))) = 1/2000001 := by
    norm_num
  have hfl : ⌊(1/2000001 : ℚ) * 1000000⌋ = 0 := by
    rw [show (1/2000001 : ℚ) * 1000000 = 1000000/2000001 by ring]
    rw [Int.floor_eq_zero_iff]
    constructor
    · norm_num
    · norm_num
  have hpr : pyRoundInt ((1/2000001 : ℚ) * 1000000) = 0 := by
    simp only [pyRoundInt, hfl]
    norm_num
  have hr : round6 (0 + 1 / (((2000000 : ℤ) : ℚ) + (((0 : ℕ) : ℚ) + 1))) = 0 := by
    rw [harg, round6, hpr]
    norm_num
  have hhit := hall _ (by rw [key]; exact List.mem_cons_self _ _)
  rw [show (ScoredHit.mk "d" (round6 (0 + 1 / (((2000000 : ℤ) : ℚ) + (((0 : ℕ) : ℚ) + 1))))
    "s" 0 0 0).score = round6 (0 + 1 / (((2000000 : ℤ) : ℚ) + (((0 : ℕ) : ℚ) + 1)))
    from rfl, hr] at hhit
  exact absurd hhit (by norm_num)

/-- Claim C8 (amended): `linear_combination` scores under the default weights
(0.7, 0.15, 0.15) lie in `[0, 1]`. For `reciprocal_rank_fusion` with `k ≥ 0`,
every returned score is strictly positive provided `k + len(list) ≤ 10^6` for
each input list (so that each reciprocal contribution survives the 6-decimal
rounding); and a document enters the RRF score dict iff it appears in at least
one input list. -/
theorem claim_C8_fusion_bounds :
    (∀ (b t v : List (String × ℚ × String)) (topK : ℕ),
      ∀ h ∈ linearCombination b t v (7/10) (3/20) (3/20) topK,
        0 ≤ h.score ∧ h.score ≤ 1)
    ∧ (∀ (ls : List (List (String × ℚ × String))) (k : ℤ) (topK : ℕ),
        0 ≤ k → (∀ l ∈ ls, (l.length : ℤ) + k ≤ 1000000) →
        ∀ h ∈ reciprocalRankFusion ls k topK, 0 < h.score)
    ∧ (∀ (ls : List (List (String × ℚ × String))) (k : ℤ) (d : String),
        d ∈ keysOf (rrfScores ls k) ↔ ∃ l ∈ ls, ∃ e ∈ l, e.1 = d) := by
  refine ⟨?_, ?_, ?_⟩
  · intro b t v topK h hmem
    have h1 : h ∈ _ := List.mem_of_mem_take hmem
    rw [List.mem_insertionSort] at h1
    obtain ⟨d, hd, rfl⟩ := List.mem_map.mp h1
    have hbval : ∀ (src : List (String × ℚ)),
        (∀ p ∈ src, 0 ≤ p.2 ∧ p.2 ≤ 1) → 0 ≤ lookupD src d 0 ∧ lookupD src d 0 ≤ 1 := by
      intro src hsrc
      rcases lookupD_cases src d 0 with h0 | ⟨p, hp, heq⟩
      · rw [h0]; norm_num
      · rw [heq]; exact hsrc p hp
    have hb := hbval (minMaxNormalise (pyDict (b.map (fun h => (h.1, h.2.1)))))
      (minMaxNormalise_bounds _)
    have ht := hbval (minMaxNormalise (pyDict (t.map (fun h => (h.1, h.2.1)))))
      (minMaxNormalise_bounds _)
    have hv := hbval (minMaxNormalise (pyDict (v.map (fun h => (h.1, h.2.1)))))
      (minMaxNormalise_bounds _)
    dsimp only
    constructor
    · exact round6_nonneg _ (by nlinarith [hb.1, ht.1, hv.1])
    · exact round6_le_one _ (by nlinarith [hb.1, hb.2, ht.1, ht.2, hv.1, hv.2])
  · intro ls k topK hk hlen h hmem
    have h1 : h ∈ _ := List.mem_of_mem_take hmem
    rw [List.mem_insertionSort] at h1
    obtain ⟨p, hp, rfl⟩ := List.mem_map.mp h1
    have hv : (1 : ℚ)/1000000 ≤ p.2 :=
      rrfScores_go_inv ls k hk hlen [] (by simp) p (by simpa [rrfScores] using hp)
    have := round6_ge_millionth _ hv
    dsimp only
    linarith
  · intro ls k d
    have h := keys_rrfScores_go ls k [] d
    simpa [rrfScores, keysOf] using h

/-- Witness for C8: the RRF positivity part applied at `k = 60` to a concrete
two-document ranked list. -/
theorem claim_C8_witness :
    ((0 : ℤ) ≤ 60 ∧ ∀ l ∈ [[("a", (3 : ℚ), "s1"), ("b", 1, "s1")]],
      (l.length : ℤ) + 60 ≤ 1000000)
    ∧ ∀ h ∈ reciprocalRankFusion [[("a", (3 : ℚ), "s1"), ("b", 1, "s1")]] 60 20,
        0 < h.score :=
  ⟨⟨by decide, by decide⟩,
    claim_C8_fusion_bounds.2.1 [[("a", (3 : ℚ), "s1"), ("b", 1, "s1")]] 60 20
      (by decide) (by decide)⟩

/-- The composite effect of both UPDATEs of `activate` on the (t, sh) pair's
active predicate equals the `(type, shard, version)` match predicate. -/
theorem activate_effect_pair (t sh : String) (v : ℤ) (r : VRow) :
    decide ((activateStep t sh v (staleStep t sh r)).indexType = t
      ∧ (activateStep t sh v (staleStep t sh r)).shardId = sh
      ∧ (activateStep t sh v (staleStep t sh r)).status = VStatus.active)
    = decide (r.indexType = t ∧ r.shardId = sh ∧ r.version = v) := by
  obtain ⟨rid, it, si, ver, st, dc, fp, ca⟩ := r
  by_cases h1 : it = t <;> by_cases h2 : si = sh <;> by_cases h3 : ver = v <;>
    by_cases h4 : st = VStatus.active <;>
    simp [staleStep, activateStep, h1, h2, h3, h4]

/-- The two UPDATEs leave rows of any other `(type, shard)` pair untouched. -/
theorem activate_effect_other (t sh t2 sh2 : String) (v : ℤ) (r : VRow)
    (hne : ¬(t2 = t ∧ sh2 = sh)) :
    decide ((activateStep t sh v (staleStep t sh r)).indexType = t2
      ∧ (activateStep t sh v (staleStep t sh r)).shardId = sh2
      ∧ (activateStep t sh v (staleStep t sh r)).status = VStatus.active)
    = decide (r.indexType = t2 ∧ r.shardId = sh2 ∧ r.status = VStatus.active) := by
  obtain ⟨rid, it, si, ver, st, dc, fp, ca⟩ := r
  by_cases h1 : it = t <;> by_cases h2 : si = sh <;> by_cases h3 : ver = v <;>
    by_cases h4 : st = VStatus.active <;>
    simp [staleStep, activateStep, h1, h2, h3, h4] <;>
    tauto

/-- Source `staleStep` changes no key fields, so the version-match count is computed
on the original rows. -/
theorem matchedCount_staled (rows : List VRow) (t sh : String) (v : ℤ) :
    matchedCount (rows.map (staleStep t sh)) t sh v = matchedCount rows t sh v := by
  rw [matchedCount, matchedCount, List.countP_map]
  apply List.countP_congr
  intro r _
  obtain ⟨rid, it, si, ver, st, dc, fp, ca⟩ := r
  by_cases h1 : it = t <;> by_cases h2 : si = sh <;> by_cases h4 : st = VStatus.active <;>
    simp [staleStep, Function.comp, h1, h2, h4]

/-- Every state reachable through the store's operations has at most one
active row per `(index_type, shard_id)`. -/
theorem vreachable_single_active (s : VState) (hs : VReachable s) :
    ∀ t sh, activeCount s t sh ≤ 1 := by
  induction hs with
  | init => intro t sh; simp [activeCount]
  | insert s s2 t0 sh0 v0 st0 dc fp ca hr hok ih =>
      intro t sh
      rw [insertVersion] at hok
      split at hok
      · exact absurd hok (by simp)
      · rename_i hguard
        have hs2 : s2 = ⟨s.rows ++ [⟨s.nextId, t0, sh0, v0, st0, dc, fp, ca⟩], s.nextId + 1⟩ := by
          injection hok with h
          exact h.symm
        subst hs2
        rw [activeCount, List.countP_append]
        by_cases hm : t0 = t ∧ sh0 = sh ∧ st0 = VStatus.active
        · obtain ⟨h1, h2, h3⟩ := hm
          subst h1
          subst h2
          subst h3
          have hz : activeCount s t0 sh0 = 0 := by
            by_contra hnz
            exact hguard ⟨rfl, by omega⟩
          rw [activeCount] at hz
          have hone : List.countP
              (fun r => decide (r.indexType = t0 ∧ r.shardId = sh0 ∧ r.status = VStatus.active))
              [(⟨s.nextId, t0, sh0, v0, VStatus.active, dc, fp, ca⟩ : VRow)] ≤ 1 := by
            simp [List.countP_cons]
          omega
        · have hone : List.countP
              (fun r => decide (r.indexType = t ∧ r.shardId = sh ∧ r.status = VStatus.active))
              [(⟨s.nextId, t0, sh0, v0, st0, dc, fp, ca⟩ : VRow)] = 0 := by
            simp only [List.countP_cons, List.countP_nil]
            have : ¬((t0 = t ∧ sh0 = sh ∧ st0 = VStatus.active)) := hm
            simp [this]
          rw [hone]
          have := ih t sh
          rw [activeCount] at this
          omega
  | activate s s2 t0 sh0 v0 hr hok ih =>
      intro t sh
      rw [activateVersion] at hok
      split at hok
      · exact absurd hok (by simp)
      · rename_i hguard
        have hs2 : s2 = ⟨(s.rows.map (staleStep t0 sh0)).map (activateStep t0 sh0 v0),
            s.nextId⟩ := by
          injection hok with h
          exact h.symm
        subst hs2
        rw [activeCount, List.countP_map, List.countP_map]
        by_cases hpe : t = t0 ∧ sh = sh0
        · obtain ⟨rfl, rfl⟩ := hpe
          have heq : List.countP (((fun r => decide (r.indexType = t ∧ r.shardId = sh
              ∧ r.status = VStatus.active)) ∘ activateStep t sh v0) ∘ staleStep t sh) s.rows
              = matchedCount s.rows t sh v0 := by
            rw [matchedCount]
            apply List.countP_congr
            intro r _
            simp only [Function.comp_apply]
            rw [activate_effect_pair t sh v0 r]
          rw [heq]
          rw [matchedCount_staled] at hguard
          omega
        · have heq : List.countP (((fun r => decide (r.indexType = t ∧ r.shardId = sh
              ∧ r.status = VStatus.active)) ∘ activateStep t0 sh0 v0) ∘ staleStep t0 sh0) s.rows
              = activeCount s t sh := by
            rw [activeCount]
            apply List.countP_congr
            intro r _
            simp only [Function.comp_apply]
            rw [activate_effect_other t0 sh0 t sh v0 r hpe]
          rw [heq]
          exact ih t sh
  | delete s rid hr ih =>
      intro t sh
      exact le_trans ((List.filter_sublist _).countP_le _) (ih t sh)

/-- Claim C1, counterexample: `activate` with a version number that has no row
commits (both UPDATEs succeed, the second touching zero rows) and leaves ZERO
active rows for the pair — the state is reachable and the call returns
successfully. -/
theorem claim_C1_counterexample :
    VReachable ⟨[⟨1, "bm25", "shard_x", 1, VStatus.active, 3, "p1", "c1"⟩], 2⟩
    ∧ activateVersion ⟨[⟨1, "bm25", "shard_x", 1, VStatus.active, 3, "p1", "c1"⟩], 2⟩
        "bm25" "shard_x" 2
      = .ok ⟨[⟨1, "bm25", "shard_x", 1, VStatus.stale, 3, "p1", "c1"⟩], 2⟩
    ∧ activeCount ⟨[⟨1, "bm25", "shard_x", 1, VStatus.stale, 3, "p1", "c1"⟩], 2⟩
        "bm25" "shard_x" = 0 := by
  refine ⟨?_, by rfl, by rfl⟩
  have h1 : VReachable ⟨[⟨1, "bm25", "shard_x", 1, VStatus.building, 3, "p1", "c1"⟩], 2⟩ :=
    .insert ⟨[], 1⟩ _ "bm25" "shard_x" 1 VStatus.building 3 "p1" "c1" .init (by rfl)
  exact .activate _ _ "bm25" "shard_x" 1 h1 (by rfl)

/-- Claim C1 (amended): at most one row per `(index_type, shard_id)` is active
in any reachable state, and a committed `activate(type, shard, version)` whose
target version row EXISTS leaves exactly one active row for the pair: the
previously active rows of other versions become stale and the target rows
become active. (When no row matches the version, the commit leaves zero
active rows.) -/
theorem claim_C1_single_active :
    (∀ s, VReachable s → ∀ t sh, activeCount s t sh ≤ 1)
    ∧ (∀ (s s2 : VState) (t sh : String) (v : ℤ),
        activateVersion s t sh v = .ok s2 →
        (∃ r ∈ s.rows, r.indexType = t ∧ r.shardId = sh ∧ r.version = v) →
        activeCount s2 t sh = 1
        ∧ (∀ r ∈ s.rows, r.indexType = t → r.shardId = sh → r.status = VStatus.active →
            ¬r.version = v → { r with status := VStatus.stale } ∈ s2.rows)
        ∧ (∀ r ∈ s.rows, r.indexType = t → r.shardId = sh → r.version = v →
            { r with status := VStatus.active } ∈ s2.rows)) := by
  constructor
  · exact vreachable_single_active
  · intro s s2 t sh v hok hex
    rw [activateVersion] at hok
    split at hok
    · exact absurd hok (by simp)
    · rename_i hguard
      have hs2 : s2 = ⟨(s.rows.map (staleStep t sh)).map (activateStep t sh v), s.nextId⟩ := by
        injection hok with h
        exact h.symm
      subst hs2
      refine ⟨?_, ?_, ?_⟩
      · rw [activeCount, List.countP_map, List.countP_map]
        have heq : List.countP (((fun r => decide (r.indexType = t ∧ r.shardId = sh
            ∧ r.status = VStatus.active)) ∘ activateStep t sh v) ∘ staleStep t sh) s.rows
            = matchedCount s.rows t sh v := by
          rw [matchedCount]
          apply List.countP_congr
          intro r _
          simp only [Function.comp_apply]
          rw [activate_effect_pair t sh v r]
        rw [heq]
        rw [matchedCount_staled] at hguard
        have hpos : 0 < matchedCount s.rows t sh v := by
          rw [matchedCount, List.countP_pos_iff]
          obtain ⟨r, hr, h1, h2, h3⟩ := hex
          exact ⟨r, hr, by simp [h1, h2, h3]⟩
        omega
      · intro r hr h1 h2 h3 h4
        have hval : activateStep t sh v (staleStep t sh r) = { r with status := VStatus.stale } := by
          obtain ⟨rid, it, si, ver, st, dc, fp, ca⟩ := r
          simp only at h1 h2 h3 h4
          subst h1; subst h2; subst h3
          rw [staleStep, if_pos ⟨rfl, rfl, rfl⟩, activateStep, if_neg (by simp [h4])]
        have hm := List.mem_map_of_mem (staleStep t sh) hr
        have hm2 := List.mem_map_of_mem (activateStep t sh v) hm
        rwa [hval] at hm2
      · intro r hr h1 h2 h3
        have hval : activateStep t sh v (staleStep t sh r) = { r with status := VStatus.active } := by
          obtain ⟨rid, it, si, ver, st, dc, fp, ca⟩ := r
          simp only at h1 h2 h3
          subst h1; subst h2; subst h3
          by_cases hact : st = VStatus.active
          · rw [staleStep, if_pos ⟨rfl, rfl, hact⟩, activateStep, if_pos ⟨rfl, rfl, rfl⟩]
          · rw [staleStep, if_neg (by simp [hact]), activateStep, if_pos ⟨rfl, rfl, rfl⟩]
        have hm := List.mem_map_of_mem (staleStep t sh) hr
        have hm2 := List.mem_map_of_mem (activateStep t sh v) hm
        rwa [hval] at hm2

/-- Witness for C1: the spec's atomic-swap scenario — `v1` active, `v2`
building, `activate(bm25, shard_x, 2)` — yields exactly one active row. -/
theorem claim_C1_witness :
    activeCount ⟨[⟨1, "bm25", "shard_x", 1, VStatus.stale, 3, "p1", "c1"⟩,
      ⟨2, "bm25", "shard_x", 2, VStatus.active, 4, "p2", "c2"⟩], 3⟩ "bm25" "shard_x" = 1 :=
  (claim_C1_single_active.2
    ⟨[⟨1, "bm25", "shard_x", 1, VStatus.active, 3, "p1", "c1"⟩,
      ⟨2, "bm25", "shard_x", 2, VStatus.building, 4, "p2", "c2"⟩], 3⟩
    ⟨[⟨1, "bm25", "shard_x", 1, VStatus.stale, 3, "p1", "c1"⟩,
      ⟨2, "bm25", "shard_x", 2, VStatus.active, 4, "p2", "c2"⟩], 3⟩
    "bm25" "shard_x" 2 (by rfl)
    ⟨⟨2, "bm25", "shard_x", 2, VStatus.building, 4, "p2", "c2"⟩,
      by simp, rfl, rfl, rfl⟩).1

/-- Claim C6, counterexample: the store's `activate` does not check version
monotonicity — with versions 1 and 2 recorded, `activate(bm25, shard_x, 1)`
succeeds even though `1 > previous_max_version = 2` is false. -/
theorem claim_C6_counterexample :
    VReachable vsTwoBuilding
    ∧ latestVersion vsTwoBuilding "bm25" "shard_x" = 2
    ∧ activateVersion vsTwoBuilding "bm25" "shard_x" 1
      = .ok ⟨[⟨1, "bm25", "shard_x", 1, VStatus.active, 3, "p1", "c1"⟩,
          ⟨2, "bm25", "shard_x", 2, VStatus.building, 4, "p2", "c2"⟩], 3⟩
    ∧ ¬ ((1 : ℤ) > 2) := by
  refine ⟨?_, by rfl, by rfl, by norm_num⟩
  have h1 : VReachable ⟨[⟨1, "bm25", "shard_x", 1, VStatus.building, 3, "p1", "c1"⟩], 2⟩ :=
    .insert ⟨[], 1⟩ _ "bm25" "shard_x" 1 VStatus.building 3 "p1" "c1" .init (by rfl)
  exact .insert _ _ "bm25" "shard_x" 2 VStatus.building 4 "p2" "c2" h1 (by rfl)

/-- Every version recorded for a pair is at most `get_latest_version_number`. -/
theorem version_le_latest (s : VState) (t sh : String) (r : VRow) (hr : r ∈ s.rows)
    (h1 : r.indexType = t) (h2 : r.shardId = sh) : r.version ≤ latestVersion s t sh := by
  have hmem : r.version ∈ (s.rows.filter
      (fun r => decide (r.indexType = t ∧ r.shardId = sh))).map (fun r => r.version) := by
    exact List.mem_map_of_mem _ (List.mem_filter.mpr ⟨hr, by simp [h1, h2]⟩)
  rw [latestVersion]
  split
  · rename_i heq
    rw [heq] at hmem
    cases hmem
  · rename_i v0 vs heq
    rw [heq] at hmem
    rcases List.mem_cons.mp hmem with h | h
    · rw [h]
      exact foldl_max_init_le vs v0
    · exact mem_le_foldl_max vs v0 _ h

/-- Claim C6 (amended): the store's `activate` itself enforces no monotonicity
(see the counterexample); what holds is that the version the builder
activates, `get_latest_version_number + 1`, is strictly greater than every
version previously recorded for the pair, and the builder's
insert-then-activate sequence on that fresh version always succeeds. -/
theorem claim_C6_monotone_builder :
    (∀ (s : VState) (t sh : String) (r : VRow), r ∈ s.rows → r.indexType = t →
      r.shardId = sh → r.version < latestVersion s t sh + 1)
    ∧ (∀ (s : VState) (t sh : String) (dc : ℕ) (fp ca : String),
        ∃ s1 s2,
          insertVersion s t sh (latestVersion s t sh + 1) VStatus.building dc fp ca = .ok s1
          ∧ activateVersion s1 t sh (latestVersion s t sh + 1) = .ok s2) := by
  constructor
  · intro s t sh r hr h1 h2
    have := version_le_latest s t sh r hr h1 h2
    omega
  · intro s t sh dc fp ca
    refine ⟨VState.mk (s.rows ++ [VRow.mk s.nextId t sh (latestVersion s t sh + 1)
        VStatus.building dc fp ca]) (s.nextId + 1),
      VState.mk (((s.rows ++ [VRow.mk s.nextId t sh (latestVersion s t sh + 1)
        VStatus.building dc fp ca]).map (staleStep t sh)).map
          (activateStep t sh (latestVersion s t sh + 1))) (s.nextId + 1), ?_, ?_⟩
    · unfold insertVersion
      rw [if_neg]
      rintro ⟨h, _⟩
      cases h
    · rw [activateVersion]
      dsimp only
      have hguard : ¬ 2 ≤ matchedCount ((s.rows ++ [VRow.mk s.nextId t sh
          (latestVersion s t sh + 1) VStatus.building dc fp ca]).map (staleStep t sh))
          t sh (latestVersion s t sh + 1) := by
        rw [matchedCount_staled, matchedCount]
        simp only [List.countP_append]
        have hz : List.countP (fun r => decide (r.indexType = t ∧ r.shardId = sh
            ∧ r.version = latestVersion s t sh + 1)) s.rows = 0 := by
          rw [List.countP_eq_zero]
          intro r hr
          simp only [decide_eq_true_eq]
          rintro ⟨h1, h2, h3⟩
          have := version_le_latest s t sh r hr h1 h2
          omega
        have hone : List.countP (fun r => decide (r.indexType = t ∧ r.shardId = sh
            ∧ r.version = latestVersion s t sh + 1))
            [(⟨s.nextId, t, sh, latestVersion s t sh + 1, VStatus.building, dc, fp, ca⟩ : VRow)]
            = 1 := by
          simp [List.countP_cons]
        omega
      rw [if_neg hguard]

/-- Witness for C6: the builder inequality and the insert-activate success at
the concrete two-row state. -/
theorem claim_C6_witness :
    ((1 : ℤ) < latestVersion vsTwoBuilding "bm25" "shard_x" + 1)
    ∧ ∃ s1 s2,
        insertVersion vsTwoBuilding "bm25" "shard_x"
          (latestVersion vsTwoBuilding "bm25" "shard_x" + 1) VStatus.building 5 "p3" "c3"
          = .ok s1
        ∧ activateVersion s1 "bm25" "shard_x"
            (latestVersion vsTwoBuilding "bm25" "shard_x" + 1) = .ok s2 :=
  ⟨claim_C6_monotone_builder.1 vsTwoBuilding "bm25" "shard_x"
      ⟨1, "bm25", "shard_x", 1, VStatus.building, 3, "p1", "c1"⟩ (by simp [vsTwoBuilding])
      rfl rfl,
    claim_C6_monotone_builder.2 vsTwoBuilding "bm25" "shard_x" 5 "p3" "c3"⟩

/-- Claim C9: with `processed_posts.id` a primary key, `get_unprocessed_ids(v)`
returns exactly the raw ids having no processed row with the same id and
`pipeline_version ≥ v`. -/
theorem claim_C9_unprocessed_set (raw : List String) (processed : List ProcRow) (v : ℤ)
    (hpk : (processed.map (fun p => p.pid)).Nodup) :
    ∀ x, x ∈ getUnprocessedIds raw processed v
      ↔ x ∈ raw ∧ ¬ ∃ p ∈ processed, p.pid = x ∧ v ≤ p.pipelineVersion := by
  intro x
  rw [getUnprocessedIds, List.mem_filter]
  constructor
  · rintro ⟨hmem, hcond⟩
    refine ⟨hmem, ?_⟩
    rintro ⟨p, hp, hpid, hge⟩
    cases hfind : processed.find? (fun p => p.pid == x) with
    | none =>
        have := List.find?_eq_none.mp hfind p hp
        simp [hpid] at this
    | some q =>
        rw [hfind] at hcond
        have hq := List.find?_some hfind
        have hqmem := List.mem_of_find?_eq_some hfind
        simp only [beq_iff_eq] at hq
        have hpq : p = q := List.inj_on_of_nodup_map hpk hp hqmem (by rw [hpid, hq])
        simp only [decide_eq_true_eq] at hcond
        rw [← hpq] at hcond
        omega
  · rintro ⟨hmem, hnone⟩
    refine ⟨hmem, ?_⟩
    cases hfind : processed.find? (fun p => p.pid == x) with
    | none => rfl
    | some q =>
        have hq := List.find?_some hfind
        have hqmem := List.mem_of_find?_eq_some hfind
        simp only [beq_iff_eq] at hq
        simp only [decide_eq_true_eq]
        by_contra hc
        push_neg at hc
        exact hnone ⟨q, hqmem, hq, by omega⟩

/-- Witness for C9: a three-post corpus with one processed row at version 2 and
one at version 1, queried at version 2. -/
theorem claim_C9_witness :
    ((([⟨"t3_a", 2⟩, ⟨"t3_b", 1⟩] : List ProcRow).map (fun p => p.pid)).Nodup)
    ∧ ("t3_b" ∈ getUnprocessedIds ["t3_a", "t3_b", "t3_c"] [⟨"t3_a", 2⟩, ⟨"t3_b", 1⟩] 2
        ↔ "t3_b" ∈ ["t3_a", "t3_b", "t3_c"]
          ∧ ¬ ∃ p ∈ ([⟨"t3_a", 2⟩, ⟨"t3_b", 1⟩] : List ProcRow),
              p.pid = "t3_b" ∧ 2 ≤ p.pipelineVersion) :=
  ⟨by decide,
    claim_C9_unprocessed_set ["t3_a", "t3_b", "t3_c"] [⟨"t3_a", 2⟩, ⟨"t3_b", 1⟩] 2
      (by decide) "t3_b"⟩

/-- Claim C3, counterexample: with `max_retries = 2` and an always-raising
handler, three worker ticks execute the job only TWICE (initial + one retry),
ending failed with `retries = 2` — not three times with `retries = 3`. -/
theorem claim_C3_counterexample :
    (runTicks alwaysRaise 2 3 (enqueueJob ⟨[], 1, 0⟩ "test" 10).1).2 = 2
    ∧ (getJobById (runTicks alwaysRaise 2 3 (enqueueJob ⟨[], 1, 0⟩ "test" 10).1).1 1).map
        (fun j => j.retries) = some 2
    ∧ ¬ (getJobById (runTicks alwaysRaise 2 3 (enqueueJob ⟨[], 1, 0⟩ "test" 10).1).1 1).map
        (fun j => j.retries) = some 3 := by
  decide

/-- Claim C3 (amended): with `max_retries = 2`, an always-raising job is
executed twice in total (the initial run plus one retry); after the second
execution its status is failed with `retries = 2`, no further `claim_next`
returns it, and an explicit `retry` re-enqueues it so `claim_next` returns it
again. -/
theorem claim_C3_worker_retry :
    (runTicks alwaysRaise 2 3 (enqueueJob ⟨[], 1, 0⟩ "test" 10).1).2 = 2
    ∧ (getJobById (runTicks alwaysRaise 2 3 (enqueueJob ⟨[], 1, 0⟩ "test" 10).1).1 1).map
        (fun j => j.status) = some JStatus.failed
    ∧ (getJobById (runTicks alwaysRaise 2 3 (enqueueJob ⟨[], 1, 0⟩ "test" 10).1).1 1).map
        (fun j => j.retries) = some 2
    ∧ (claimNext (runTicks alwaysRaise 2 3 (enqueueJob ⟨[], 1, 0⟩ "test" 10).1).1 none).1
        = none
    ∧ (claimNext (retryJob (runTicks alwaysRaise 2 3 (enqueueJob ⟨[], 1, 0⟩ "test" 10).1).1 1)
        none).1.map (fun j => j.jid) = some 1 := by
  decide

theorem fold_setKey_add (posting : List (String × ℕ)) (f : String → ℕ → ℝ)
    (sc : List (String × ℝ)) (d : String) (hnd : (keysOf posting).Nodup) :
    lookupD (posting.foldl
        (fun sc pr => setKey sc pr.1 (lookupD sc pr.1 0 + f pr.1 pr.2)) sc) d 0
      = lookupD sc d 0
        + (match alookup posting d with | none => 0 | some tf => f d tf) := by
  induction posting generalizing sc with
  | nil => simp [alookup_nil]
  | cons pr rest ih =>
      simp only [keysOf, List.map_cons, List.nodup_cons] at hnd
      rw [List.foldl_cons]
      by_cases hd : pr.1 = d
      · have hrest : alookup rest d = none := by
          rw [alookup_eq_none_iff]
          rw [← hd]
          exact hnd.1
        rw [ih _ (by simpa [keysOf] using hnd.2), hrest]
        rw [alookup_cons, if_pos hd]
        have hself : lookupD (setKey sc pr.1 (lookupD sc pr.1 0 + f pr.1 pr.2)) d 0
            = lookupD sc pr.1 0 + f pr.1 pr.2 := by
          rw [← hd, lookupD, alookup_setKey_self]
          rfl
        rw [hself, hd]
        ring
      · rw [ih _ (by simpa [keysOf] using hnd.2)]
        rw [alookup_cons, if_neg hd]
        have hother : lookupD (setKey sc pr.1 (lookupD sc pr.1 0 + f pr.1 pr.2)) d 0
            = lookupD sc d 0 := by
          rw [lookupD, alookup_setKey_ne _ _ _ _ (fun hh => hd hh.symm)]
          rfl
        rw [hother]

theorem bm25Accumulate_lookup (idx : BM25Index)
    (hin : ∀ p ∈ idx.postings, (keysOf p.2).Nodup)
    (sc : List (String × ℝ)) (t d : String) :
    lookupD (bm25Accumulate idx sc t) d 0
      = lookupD sc d 0 + bm25TermDocContrib idx t d := by
  rw [bm25Accumulate, bm25TermDocContrib]
  cases hp : alookup idx.postings t with
  | none => simp
  | some posting =>
      dsimp only
      by_cases he : posting = []
      · simp [he]
      · rw [if_neg he, if_neg he]
        have hnd : (keysOf posting).Nodup := hin _ (mem_of_alookup_eq_some hp)
        rw [fold_setKey_add posting
          (fun dId tf => bm25Idf idx.docCount posting.length
            * bm25TfWeight idx tf (lookupD idx.docLengths dId 0)) sc d hnd]

theorem bm25ScoresMap_go (idx : BM25Index)
    (hin : ∀ p ∈ idx.postings, (keysOf p.2).Nodup)
    (q : List String) (sc : List (String × ℝ)) (d : String) :
    lookupD (q.foldl (bm25Accumulate idx) sc) d 0
      = lookupD sc d 0 + (q.map (fun t => bm25TermDocContrib idx t d)).sum := by
  induction q generalizing sc with
  | nil => simp
  | cons t rest ih =>
      rw [List.foldl_cons, ih, bm25Accumulate_lookup idx hin sc t d]
      simp [add_assoc]

/-- Claim C2, counterexample: one document `d1 = ["a"]`; the duplicate query
`["a", "a"]` scores `d1` twice as high as `["a"]`, so the returned lists
differ — `score(q) ≠ score(dedup(q))`. -/
theorem claim_C2_counterexample :
    bm25Score ⟨6/5, 3/4, [("a", [("d1", 1)])], [("d1", 1)], 1, 1⟩ ["a", "a"] 5
      ≠ bm25Score ⟨6/5, 3/4, [("a", [("d1", 1)])], [("d1", 1)], 1, 1⟩ ["a"] 5 := by
  have h1 : bm25Score ⟨6/5, 3/4, [("a", [("d1", 1)])], [("d1", 1)], 1, 1⟩ ["a"] 5
      = [("d1", 0 + bm25Idf 1 1 * bm25TfWeight ⟨6/5, 3/4, [("a", [("d1", 1)])],
          [("d1", 1)], 1, 1⟩ 1 1)] := rfl
  have h2 : bm25Score ⟨6/5, 3/4, [("a", [("d1", 1)])], [("d1", 1)], 1, 1⟩ ["a", "a"] 5
      = [("d1", (0 + bm25Idf 1 1 * bm25TfWeight ⟨6/5, 3/4, [("a", [("d1", 1)])],
          [("d1", 1)], 1, 1⟩ 1 1) + bm25Idf 1 1 * bm25TfWeight ⟨6/5, 3/4,
          [("a", [("d1", 1)])], [("d1", 1)], 1, 1⟩ 1 1)] := rfl
  rw [h1, h2]
  intro heq
  have hval := List.head_eq_of_cons_eq heq
  have hsc : (0 + bm25Idf 1 1 * bm25TfWeight ⟨6/5, 3/4, [("a", [("d1", 1)])],
      [("d1", 1)], 1, 1⟩ 1 1) + bm25Idf 1 1 * bm25TfWeight ⟨6/5, 3/4,
      [("a", [("d1", 1)])], [("d1", 1)], 1, 1⟩ 1 1
      = 0 + bm25Idf 1 1 * bm25TfWeight ⟨6/5, 3/4, [("a", [("d1", 1)])],
          [("d1", 1)], 1, 1⟩ 1 1 := congrArg Prod.snd hval
  have hidf : 0 < bm25Idf 1 1 := by
    rw [bm25Idf]
    apply Real.log_pos
    norm_num
  have hw : 0 < bm25TfWeight ⟨6/5, 3/4, [("a", [("d1", 1)])], [("d1", 1)], 1, 1⟩ 1 1 := by
    rw [bm25TfWeight, bm25Norm]
    rw [if_pos (by norm_num : (0 : ℝ) < (⟨6/5, 3/4, [("a", [("d1", 1)])],
      [("d1", 1)], 1, 1⟩ : BM25Index).avgDocLen)]
    show (0 : ℝ) < ((1 : ℕ) : ℝ) * (6/5 + 1) / (((1 : ℕ) : ℝ) + 6/5 * ((1 - 3/4) + 3/4 * (((1 : ℕ) : ℝ) / 1)))
    norm_num
  nlinarith

/-- Claim C2 (amended): the accumulated score of a document is the sum, over
the query tokens WITH multiplicity, of the per-term contribution — each
occurrence of a token adds its contribution once more, so duplicate query
tokens scale a term's contribution by its multiplicity and
`score(q) = score(dedup(q))` holds only when no duplicated token has a
non-empty posting list. -/
theorem claim_C2_score_per_occurrence (idx : BM25Index) (h : BM25WF idx)
    (q : List String) (d : String) :
    lookupD (bm25ScoresMap idx q) d 0
      = (q.map (fun t => bm25TermDocContrib idx t d)).sum := by
  rw [bm25ScoresMap, bm25ScoresMap_go idx h.2.1 q [] d]
  simp [lookupD, alookup_nil]

/-- Witness for C2: the per-occurrence sum at the concrete one-document index
and the duplicated query. -/
theorem claim_C2_witness :
    BM25WF ⟨6/5, 3/4, [("a", [("d1", 1)])], [("d1", 1)], 1, 1⟩
    ∧ lookupD (bm25ScoresMap ⟨6/5, 3/4, [("a", [("d1", 1)])], [("d1", 1)], 1, 1⟩
        ["a", "a"]) "d1" 0
      = ((["a", "a"]).map (fun t => bm25TermDocContrib ⟨6/5, 3/4, [("a", [("d1", 1)])],
          [("d1", 1)], 1, 1⟩ t "d1")).sum :=
  ⟨⟨by decide, by decide, by decide⟩,
    claim_C2_score_per_occurrence ⟨6/5, 3/4, [("a", [("d1", 1)])], [("d1", 1)], 1, 1⟩
      ⟨by decide, by decide, by decide⟩ ["a", "a"] "d1"⟩

/-- Claim C5 (the spec's mandated check is absent): loading an artifact whose
FAISS file holds 2 vectors while the sidecar lists 1 doc id succeeds — `load`
returns an index with `doc_count = 1` against 2 stored vectors instead of
raising `IndexCorrupt`. -/
theorem claim_C5_mismatch_loads :
    vectorLoad ⟨[[1], [0]], 1, ["d1"], 1⟩
      = ⟨1, ["d1"], some [[1], [0]], 1⟩
    ∧ (vectorLoad ⟨[[1], [0]], 1, ["d1"], 1⟩).docCount = 1
    ∧ ((vectorLoad ⟨[[1], [0]], 1, ["d1"], 1⟩).index.map List.length) = some 2 := by
  refine ⟨rfl, rfl, rfl⟩

theorem map_pyDict_id (l : List (String × List (String × ℕ)))
    (h : ∀ p ∈ l, (keysOf p.2).Nodup) :
    l.map (fun pr => (pr.1, pyDict pr.2)) = l := by
  induction l with
  | nil => rfl
  | cons pr rest ih =>
      rw [List.map_cons, pyDict_eq_self pr.2 (h pr (List.mem_cons_self _ _)),
        ih (fun p hp => h p (List.mem_cons_of_mem _ hp))]

theorem bm25_roundtrip_id (idx : BM25Index) (h : BM25WF idx) :
    bm25Load (bm25Save idx) = idx := by
  obtain ⟨k1, b, postings, docLengths, dc, adl⟩ := idx
  obtain ⟨h1, h2, h3⟩ := h
  simp only at h1 h2 h3
  have hpost : pyDict (postings.map (fun pr => (pr.1, pyDict pr.2))) = postings := by
    rw [map_pyDict_id postings h2]
    exact pyDict_eq_self postings h1
  have hdl : pyDict docLengths = docLengths := pyDict_eq_self docLengths h3
  rw [bm25Save, bm25Load]
  dsimp only
  rw [hpost, hdl]

theorem tfidf_roundtrip_id (idx : TFIDFIndex) (h : TFIDFWF idx) :
    tfidfLoad (tfidfSave idx) = idx := by
  obtain ⟨docIds, vocab, idf, matrix⟩ := idx
  rw [tfidfSave, tfidfLoad]
  by_cases hd : docIds.length = 0
  · rw [if_pos hd]
    obtain ⟨h1, h2, h3⟩ := h (List.eq_nil_of_length_eq_zero hd)
    simp only at h1 h2 h3
    rw [h1, h2, h3]
  · rw [if_neg hd]

theorem vector_roundtrip_id (idx : VectorIndex) (a : VectorArtifact)
    (hcount : idx.docCount = idx.docIds.length) (hsave : vectorSave idx = .ok a) :
    vectorLoad a = idx := by
  obtain ⟨dim, docIds, index, docCount⟩ := idx
  cases index with
  | none => exact absurd hsave (by simp [vectorSave])
  | some vecs =>
      rw [vectorSave] at hsave
      have ha : a = ⟨vecs, dim, docIds, dim⟩ := by
        injection hsave with h
        exact h.symm
      subst ha
      rw [vectorLoad]
      simp only at hcount
      rw [hcount]

/-- Claim C7: for each index type, saving and loading restores the exact
persisted state, so scoring any query returns identical results (exact
equality, hence within the 1e-6 tolerance). The BM25/TF-IDF sides assume the
dict invariants any built index satisfies; the vector side assumes a
successful save (a built index) and the `doc_count = len(doc_ids)` invariant
of build/load. -/
theorem claim_C7_roundtrip :
    (∀ (idx : BM25Index), BM25WF idx → ∀ (q : List String) (topK : ℤ),
      bm25Score (bm25Load (bm25Save idx)) q topK = bm25Score idx q topK)
    ∧ (∀ (idx : TFIDFIndex), TFIDFWF idx → ∀ (q : List String) (topK : ℕ),
      tfidfScore (tfidfLoad (tfidfSave idx)) q topK = tfidfScore idx q topK)
    ∧ (∀ (idx : VectorIndex) (a : VectorArtifact), idx.docCount = idx.docIds.length →
      vectorSave idx = .ok a → ∀ (q : List ℝ) (topK : ℕ),
      vectorSearch (vectorLoad a) q topK = vectorSearch idx q topK) := by
  refine ⟨?_, ?_, ?_⟩
  · intro idx h q topK
    rw [bm25_roundtrip_id idx h]
  · intro idx h q topK
    rw [tfidf_roundtrip_id idx h]
  · intro idx a hcount hsave q topK
    rw [vector_roundtrip_id idx a hcount hsave]

/-- Witness for C7: the three round-trips applied to concrete indexes. -/
theorem claim_C7_witness :
    (bm25Score (bm25Load (bm25Save ⟨6/5, 3/4, [("py", [("d1", 2)])], [("d1", 2)], 1, 2⟩))
        ["py"] 3
      = bm25Score ⟨6/5, 3/4, [("py", [("d1", 2)])], [("d1", 2)], 1, 2⟩ ["py"] 3)
    ∧ (tfidfScore (tfidfLoad (tfidfSave ⟨["d1"], [("py", 0)], [1], [[1]]⟩)) ["py"] 3
      = tfidfScore ⟨["d1"], [("py", 0)], [1], [[1]]⟩ ["py"] 3)
    ∧ (vectorSearch (vectorLoad ⟨[[1, 0]], 2, ["d1"], 2⟩) [1, 0] 3
      = vectorSearch ⟨2, ["d1"], some [[1, 0]], 1⟩ [1, 0] 3) :=
  ⟨claim_C7_roundtrip.1 ⟨6/5, 3/4, [("py", [("d1", 2)])], [("d1", 2)], 1, 2⟩
      ⟨by decide, by decide, by decide⟩ ["py"] 3,
    claim_C7_roundtrip.2.1 ⟨["d1"], [("py", 0)], [1], [[1]]⟩ (by intro h; cases h) ["py"] 3,
    claim_C7_roundtrip.2.2 ⟨2, ["d1"], some [[1, 0]], 1⟩ ⟨[[1, 0]], 2, ["d1"], 2⟩
      (by rfl) (by rfl) [1, 0] 3⟩

end RediSearch
